import Mathlib

/-!
# Verification of the `weak-event-pool` event registry

A shallow embedding of `src/EventPool.ts`.  The registry keeps, per event
name, two coupled tables:

* `events     : Map event (Map eventId (WeakRef handler))`
* `handlerMap : Map event (Map handler eventId)`

JavaScript `Map`s are insertion ordered; `set` overwrites an existing key in
place and appends a fresh key; `delete` removes the (unique) entry for a key.
We model a `Map` as an association list `List (K × V)` with exactly those
operations.  In a real JS `Map` keys are unique; states produced by the
operations from a well-formed state keep the key lists duplicate-free, which
is captured by the `WFPool` predicate below.

Handlers are modelled by natural-number identities.  `WeakRef.deref` is
modelled by an external liveness oracle `live : HandlerId → Bool` supplied by
the host memory manager: `deref` yields the handler when it is live and
nothing once it has been reclaimed.  Subscription identifiers (JS `Symbol`s)
are modelled by a monotone counter `nextId`; a symbol is process-unique, so
every minted identifier is fresh.

The bodies of the closures created by `once` are modelled by a behavior
environment `β : HandlerId → HKind`: a caller-supplied handler is `plain`,
while the wrapper closure minted by `once event handler` has kind
`wrapper event handler` (it invokes the captured handler and then removes
itself via the normal `off` path).

Emission is modelled with an invocation log: `emit` returns the final state
together with the list of `(handler, argument)` calls it performed, in call
order.
-/

namespace WeakEventPool

/-- JS `Map.prototype.get`: the value stored at the first entry with the
given key, if any. -/
def mget [DecidableEq K] (k : K) : List (K × V) → Option V
  | [] => none
  | (k', v) :: t => if k' = k then some v else mget k t

/-- JS `Map.prototype.has`. -/
def mhas [DecidableEq K] (k : K) (l : List (K × V)) : Bool :=
  (mget k l).isSome

/-- JS `Map.prototype.set`: overwrite in place when the key is present,
append otherwise (insertion order is preserved). -/
def mset [DecidableEq K] (k : K) (v : V) : List (K × V) → List (K × V)
  | [] => [(k, v)]
  | (k', v') :: t => if k' = k then (k, v) :: t else (k', v') :: mset k v t

/-- JS `Map.prototype.delete`: remove the first entry with the given key. -/
def mdel [DecidableEq K] (k : K) : List (K × V) → List (K × V)
  | [] => []
  | (k', v') :: t => if k' = k then t else (k', v') :: mdel k t

/-- Remove the first entry with the given value: the
`for ... if (id === eventId) { handlerMap.delete(handler); break; }` loop of
`cleanDeadHandlers`. -/
def delFirstVal [DecidableEq V] (v : V) : List (K × V) → List (K × V)
  | [] => []
  | (k', v') :: t => if v' = v then t else (k', v') :: delFirstVal v t

/-- Handler identity: a caller-supplied callable is identified by a natural
number. -/
abbrev HandlerId := Nat

/-- Subscription identifier: `Symbol(event)` is modelled by the value of a
process-wide monotone counter, which makes every minted identifier unique. -/
abbrev EventId := Nat

/-- `WeakRef.deref`: the handler if the memory manager still considers it
live, `none` once it has been reclaimed. -/
def deref (live : HandlerId → Bool) (h : HandlerId) : Option HandlerId :=
  if live h then some h else none

/-- The behavior of a handler value: either a caller-supplied callable, or
the closure minted by `once event handler`, which invokes `handler` and then
unsubscribes itself from `event` via `off`. -/
inductive HKind where
  | plain : HKind
  | wrapper : String → HandlerId → HKind
deriving DecidableEq

/-- The registry state: the two coupled tables of `EventPool`, plus the
symbol-minting counter. -/
structure EventPool where
  events : List (String × List (EventId × HandlerId))
  handlerMap : List (String × List (HandlerId × EventId))
  nextId : Nat
deriving DecidableEq

/-- The initial (empty) registry state. -/
def emptyPool : EventPool := ⟨[], [], 0⟩

/-- The subscription table of an event (empty when the event has no row). -/
def emOf (event : String) (s : EventPool) : List (EventId × HandlerId) :=
  (mget event s.events).getD []

/-- The reverse table of an event (empty when the event has no row). -/
def hmOf (event : String) (s : EventPool) : List (HandlerId × EventId) :=
  (mget event s.handlerMap).getD []

namespace EventPool

/-- `EventPool.cleanDeadHandlers(event)`: when both tables exist for the
event, collect the identifiers whose weak reference no longer resolves, then
delete each such identifier from the subscription table and the first
reverse entry pointing at it. -/
def cleanDeadHandlers (live : HandlerId → Bool) (event : String)
    (s : EventPool) : EventPool :=
  match mget event s.events, mget event s.handlerMap with
  | some em, some hm =>
      let deadEventIds := (em.filter (fun p => !(live p.2))).map Prod.fst
      let em' := deadEventIds.foldl (fun acc id => mdel id acc) em
      let hm' := deadEventIds.foldl (fun acc id => delFirstVal id acc) hm
      { s with events := mset event em' s.events,
               handlerMap := mset event hm' s.handlerMap }
  | _, _ => s

/-- `EventPool.on(event, handler)`: create both tables for the event when
absent, mint a fresh identifier, store the weak reference under it, record
the reverse mapping, and return the identifier together with the new
state. -/
def on_ (event : String) (handler : HandlerId) (s : EventPool) :
    EventId × EventPool :=
  let events0 := if mhas event s.events then s.events
                 else mset event [] s.events
  let handlerMap0 := if mhas event s.handlerMap then s.handlerMap
                     else mset event [] s.handlerMap
  let eventId := s.nextId
  let em := (mget event events0).getD []
  let hm := (mget event handlerMap0).getD []
  (eventId,
   { events := mset event (mset eventId handler em) events0,
     handlerMap := mset event (mset handler eventId hm) handlerMap0,
     nextId := s.nextId + 1 })

/-- `EventPool.once(event, handler)`: register the wrapper closure via the
normal `on` path.  The wrapper is a fresh callable; its identity is the
argument `wrapperId` and its body is described by the behavior environment
(`β wrapperId = .wrapper event handler`). -/
def once (event : String) (wrapperId : HandlerId) (s : EventPool) :
    EventId × EventPool :=
  on_ event wrapperId s

/-- `EventPool.off(event, handler)`: when both tables exist and the reverse
table records an identifier for the handler, delete the subscription entry
and the reverse entry; otherwise return without effect. -/
def off (event : String) (handler : HandlerId) (s : EventPool) : EventPool :=
  if mhas event s.events && mhas event s.handlerMap then
    let em := emOf event s
    let hm := hmOf event s
    match mget handler hm with
    | none => s
    | some eventId =>
        { s with events := mset event (mdel eventId em) s.events,
                 handlerMap := mset event (mdel handler hm) s.handlerMap }
  else s

/-- The `for (const [event, eventMap] of this.events.entries())` scan of
`offById`: the first event row whose subscription table owns the
identifier. -/
def findOwner (id : EventId) :
    List (String × List (EventId × HandlerId)) →
    Option (String × List (EventId × HandlerId))
  | [] => none
  | (e, em) :: t => if mhas id em then some (e, em) else findOwner id t

/-- `EventPool.offById(eventId)`: scan the events for the owner of the
identifier; when found, delete the reverse entry if the weak reference still
resolves and the reverse table row exists, and delete the subscription entry
regardless. -/
def offById (live : HandlerId → Bool) (eventId : EventId) (s : EventPool) :
    EventPool :=
  match findOwner eventId s.events with
  | none => s
  | some (event, em) =>
      let handlerOpt := (mget eventId em).bind (deref live)
      let events' := mset event (mdel eventId em) s.events
      let handlerMap' :=
        match handlerOpt, mget event s.handlerMap with
        | some h, some hm => mset event (mdel h hm) s.handlerMap
        | _, _ => s.handlerMap
      { s with events := events', handlerMap := handlerMap' }

/-- `EventPool.removeAll()`: clear both outer tables. -/
def removeAll (s : EventPool) : EventPool :=
  { s with events := [], handlerMap := [] }

/-- `EventPool.removeAllListeners(event)`: delete the event's row from both
outer tables. -/
def removeAllListeners (event : String) (s : EventPool) : EventPool :=
  { s with events := mdel event s.events, handlerMap := mdel event s.handlerMap }

/-- The first entry of the subscription table not yet visited by the
emission loop: JS `Map` iteration yields the entries in insertion order and
tolerates deletion of already-visited entries. -/
def firstUnvisited (visited : List EventId) :
    List (EventId × HandlerId) → Option (EventId × HandlerId)
  | [] => none
  | (id, h) :: t =>
      if visited.contains id then firstUnvisited visited t else some (id, h)

/-- The `for (const [_, weakRef] of eventMap.entries())` loop of `emit`:
visit the entries of the event's current subscription table in insertion
order, skipping reclaimed references; a plain handler is invoked (logged);
the wrapper minted by `once` invokes its captured handler and then removes
itself via `off`.  The fuel is an upper bound on the number of entries ever
visited; handlers reached here only delete entries, so the initial table
size suffices. -/
def emitLoop (live : HandlerId → Bool) (β : HandlerId → HKind)
    (event : String) (x : Nat) :
    Nat → List EventId → EventPool → EventPool × List (HandlerId × Nat)
  | 0, _, s => (s, [])
  | fuel + 1, visited, s =>
      match mget event s.events with
      | none => (s, [])
      | some em =>
          match firstUnvisited visited em with
          | none => (s, [])
          | some (id, h) =>
              match deref live h with
              | none => emitLoop live β event x fuel (id :: visited) s
              | some _ =>
                  match β h with
                  | .plain =>
                      let r := emitLoop live β event x fuel (id :: visited) s
                      (r.1, (h, x) :: r.2)
                  | .wrapper wevent inner =>
                      let s1 := off wevent h s
                      let r := emitLoop live β event x fuel (id :: visited) s1
                      (r.1, (h, x) :: (inner, x) :: r.2)

/-- `EventPool.emit(event, ...args)`: clean the event first, then invoke the
live handler behind every remaining weak reference in insertion order.
Returns the final state and the invocation log. -/
def emit (live : HandlerId → Bool) (β : HandlerId → HKind) (event : String)
    (x : Nat) (s : EventPool) : EventPool × List (HandlerId × Nat) :=
  let s1 := cleanDeadHandlers live event s
  match mget event s1.events with
  | none => (s1, [])
  | some em => emitLoop live β event x em.length [] s1

/-- `EventPool.sweepDeadHandlers()`: run `cleanDeadHandlers` for every known
event name. -/
def sweepDeadHandlers (live : HandlerId → Bool) (s : EventPool) : EventPool :=
  (s.events.map Prod.fst).foldl
    (fun acc e => cleanDeadHandlers live e acc) s

end EventPool

/-- Key lists of every (outer and inner) table are duplicate-free, as they
are for genuine JS `Map`s. -/
def WFPool (s : EventPool) : Prop :=
  (s.events.map Prod.fst).Nodup ∧ (s.handlerMap.map Prod.fst).Nodup ∧
  (∀ p ∈ s.events, (p.2.map Prod.fst).Nodup) ∧
  (∀ p ∈ s.handlerMap, (p.2.map Prod.fst).Nodup)

instance : DecidablePred WFPool := fun s => by
  unfold WFPool; infer_instance

/-- Every subscription identifier stored anywhere in the registry was minted
before the current counter value; fresh identifiers are therefore unused. -/
def IdsBound (s : EventPool) : Prop :=
  (∀ p ∈ s.events, ∀ q ∈ p.2, q.1 < s.nextId) ∧
  (∀ p ∈ s.handlerMap, ∀ q ∈ p.2, q.2 < s.nextId)

instance : DecidablePred IdsBound := fun s => by
  unfold IdsBound; infer_instance

/-- The handler identities the registry stores as plain (strong) `Map` keys:
the keys of every inner `handlerMap` table.  A standard JS `Map` holds
strong references to its keys, so every handler listed here is rooted by the
registry itself. -/
def strongHandlerRefs (s : EventPool) : List HandlerId :=
  s.handlerMap.flatMap (fun p => p.2.map Prod.fst)

/-- A public operation of the registry, as invoked by a caller.  `on` and
`once` carry the handler (resp. wrapper) identity; `emit` carries the
argument passed to the handlers. -/
inductive Op where
  | on (event : String) (handler : HandlerId)
  | once (event : String) (wrapperId : HandlerId)
  | off (event : String) (handler : HandlerId)
  | offById (id : EventId)
  | removeAllListeners (event : String)
  | removeAll
  | emit (event : String) (x : Nat)
  | sweep

/-- The state transition of one public operation, under the liveness oracle
in force when the operation runs. -/
def applyOp (live : HandlerId → Bool) (β : HandlerId → HKind)
    (s : EventPool) : Op → EventPool
  | .on e h => (EventPool.on_ e h s).2
  | .once e w => (EventPool.once e w s).2
  | .off e h => EventPool.off e h s
  | .offById id => EventPool.offById live id s
  | .removeAllListeners e => EventPool.removeAllListeners e s
  | .removeAll => EventPool.removeAll s
  | .emit e x => (EventPool.emit live β e x s).1
  | .sweep => EventPool.sweepDeadHandlers live s

/-- One step of a caller history: the public operation together with the
liveness oracle in force when it runs (the memory manager may reclaim
handlers between operations). -/
structure Step where
  live : HandlerId → Bool
  op : Op

/-- Run a caller history. -/
def runSteps (β : HandlerId → HKind) : EventPool → List Step → EventPool
  | s, [] => s
  | s, st :: t => runSteps β (applyOp st.live β s st.op) t

/-- The liveness oracle in force after the last step. -/
def lastLive : (HandlerId → Bool) → List Step → (HandlerId → Bool)
  | l, [] => l
  | _, st :: t => lastLive st.live t

/-- Precondition of one operation: a subscribe (or subscribe-once) call may
not register a handler that already has a reverse entry for that event — the
duplicate-subscribe case in which the reverse entry is silently
overwritten. -/
def okStep (s : EventPool) : Op → Prop
  | .on e h => mget h (hmOf e s) = none
  | .once e w => mget w (hmOf e s) = none
  | _ => True

/-- A well-formed caller history: liveness only ever shrinks (the memory
manager never resurrects a reclaimed handler), and no step is a
duplicate-subscribe. -/
def StepsOk (β : HandlerId → HKind) :
    (HandlerId → Bool) → EventPool → List Step → Prop
  | _, _, [] => True
  | prev, s, st :: t =>
      (∀ h, st.live h = true → prev h = true) ∧ okStep s st.op ∧
      StepsOk β st.live (applyOp st.live β s st.op) t

/-- The live-subscription agreement between the two tables of every event:
for a live handler, an identifier holds that handler in the subscription
table iff the reverse table maps the handler to that identifier. -/
def LiveAgree (live : HandlerId → Bool) (s : EventPool) : Prop :=
  ∀ e id h, live h = true →
    (mget id (emOf e s) = some h ↔ mget h (hmOf e s) = some id)

/-- Reverse-table soundness: every reverse entry either matches a
subscription entry, or is an inert leftover of a reclaimed handler whose
identifier is gone from the subscription table. -/
def RevSound (live : HandlerId → Bool) (s : EventPool) : Prop :=
  ∀ e h id, mget h (hmOf e s) = some id →
    mget id (emOf e s) = some h ∨
    (live h = false ∧ mget id (emOf e s) = none)

/-- Subscription-table completeness: every subscription entry whose handler
is live has a matching reverse entry. -/
def RevComplete (live : HandlerId → Bool) (s : EventPool) : Prop :=
  ∀ e id h, mget id (emOf e s) = some h → live h = true →
    mget h (hmOf e s) = some id

/-- The two coupled tables of a single event, abstracted from the pool: the
soundness and completeness conditions of `RevSound`/`RevComplete` for one
subscription table `em` and one reverse table `hm`. -/
def TableInv (live : HandlerId → Bool) (em : List (EventId × HandlerId))
    (hm : List (HandlerId × EventId)) : Prop :=
  (∀ h id, mget h hm = some id →
    mget id em = some h ∨ (live h = false ∧ mget id em = none)) ∧
  (∀ id h, mget id em = some h → live h = true → mget h hm = some id)

/-- The inductive invariant maintained by every public operation along a
well-formed caller history. -/
def Inv (live : HandlerId → Bool) (s : EventPool) : Prop :=
  WFPool s ∧ IdsBound s ∧ (∀ e, TableInv live (emOf e s) (hmOf e s))

section MapLemmas

set_option linter.unusedSectionVars false

variable {K V : Type} [DecidableEq K] [DecidableEq V]

theorem mget_mset_self (k : K) (v : V) (l : List (K × V)) :
    mget k (mset k v l) = some v := by
  induction l with
  | nil => simp [mset, mget]
  | cons p t ih =>
      obtain ⟨k', v'⟩ := p
      by_cases h : k' = k <;> simp [mset, mget, h, ih]

theorem mget_mset_ne (k k' : K) (v : V) (l : List (K × V)) (h : k' ≠ k) :
    mget k' (mset k v l) = mget k' l := by
  induction l with
  | nil => simp [mset, mget, Ne.symm h]
  | cons p t ih =>
      obtain ⟨k₀, v₀⟩ := p
      by_cases hk : k₀ = k
      · subst hk
        simp [mset, mget, Ne.symm h]
      · simp [mset, mget, hk, ih]

theorem mset_eq_self (k : K) (v : V) (l : List (K × V))
    (h : mget k l = some v) : mset k v l = l := by
  induction l with
  | nil => simp [mget] at h
  | cons p t ih =>
      obtain ⟨k₀, v₀⟩ := p
      by_cases hk : k₀ = k
      · subst hk
        simp only [mget] at h
        rw [if_pos trivial] at h
        injection h with hv
        simp only [mset, if_pos rfl]
        simp [hv]
      · simp only [mget, if_neg hk] at h
        simp [mset, hk, ih h]

theorem mget_mdel_ne (k k' : K) (l : List (K × V)) (h : k' ≠ k) :
    mget k' (mdel k l) = mget k' l := by
  induction l with
  | nil => simp [mdel]
  | cons p t ih =>
      obtain ⟨k₀, v₀⟩ := p
      by_cases hk : k₀ = k
      · subst hk
        simp [mdel, mget, Ne.symm h]
      · simp [mdel, mget, hk, ih]

theorem mdel_sublist (k : K) (l : List (K × V)) : (mdel k l).Sublist l := by
  induction l with
  | nil => simp [mdel]
  | cons p t ih =>
      obtain ⟨k₀, v₀⟩ := p
      unfold mdel
      by_cases hk : k₀ = k
      · simp only [if_pos hk]
        exact List.sublist_cons_self (k₀, v₀) t
      · simp only [if_neg hk]
        exact ih.cons₂ (k₀, v₀)

theorem delFirstVal_sublist (v : V) (l : List (K × V)) :
    (delFirstVal v l).Sublist l := by
  induction l with
  | nil => simp [delFirstVal]
  | cons p t ih =>
      obtain ⟨k₀, v₀⟩ := p
      unfold delFirstVal
      by_cases hv : v₀ = v
      · simp only [if_pos hv]
        exact List.sublist_cons_self (k₀, v₀) t
      · simp only [if_neg hv]
        exact ih.cons₂ (k₀, v₀)

theorem mget_mem {k : K} {v : V} {l : List (K × V)}
    (h : mget k l = some v) : (k, v) ∈ l := by
  induction l with
  | nil => simp [mget] at h
  | cons p t ih =>
      obtain ⟨k₀, v₀⟩ := p
      by_cases hk : k₀ = k
      · subst hk
        simp only [mget] at h
        rw [if_pos trivial] at h
        injection h with hv
        simp [hv]
      · simp only [mget, if_neg hk] at h
        exact List.mem_cons_of_mem _ (ih h)

theorem mget_eq_none_iff {k : K} {l : List (K × V)} :
    mget k l = none ↔ k ∉ l.map Prod.fst := by
  induction l with
  | nil => simp [mget]
  | cons p t ih =>
      obtain ⟨k₀, v₀⟩ := p
      by_cases hk : k₀ = k
      · subst hk
        simp [mget]
      · simp [mget, hk, ih, Ne.symm hk]

theorem mget_isSome_of_mem {k : K} {v : V} {l : List (K × V)}
    (h : (k, v) ∈ l) : mget k l ≠ none := by
  intro hn
  exact (mget_eq_none_iff.mp hn) (List.mem_map.mpr ⟨(k, v), h, rfl⟩)

theorem mget_eq_some_of_mem {k : K} {v : V} {l : List (K × V)}
    (hnd : (l.map Prod.fst).Nodup) (h : (k, v) ∈ l) : mget k l = some v := by
  induction l with
  | nil => simp at h
  | cons p t ih =>
      obtain ⟨k₀, v₀⟩ := p
      simp only [List.map_cons, List.nodup_cons] at hnd
      rcases List.mem_cons.mp h with h | h
      · cases h
        simp [mget]
      · have hk : k₀ ≠ k := by
          rintro rfl
          exact hnd.1 (List.mem_map.mpr ⟨(k₀, v), h, rfl⟩)
        simp [mget, hk, ih hnd.2 h]

theorem mget_mdel_self {k : K} {l : List (K × V)}
    (hnd : (l.map Prod.fst).Nodup) : mget k (mdel k l) = none := by
  induction l with
  | nil => simp [mdel, mget]
  | cons p t ih =>
      obtain ⟨k₀, v₀⟩ := p
      simp only [List.map_cons, List.nodup_cons] at hnd
      by_cases hk : k₀ = k
      · subst hk
        simp only [mdel, if_pos rfl]
        exact mget_eq_none_iff.mpr hnd.1
      · simp [mdel, mget, hk, ih hnd.2]

theorem keys_mset_of_mem (k : K) (v : V) (l : List (K × V))
    (h : mhas k l = true) : (mset k v l).map Prod.fst = l.map Prod.fst := by
  induction l with
  | nil => simp [mhas, mget] at h
  | cons p t ih =>
      obtain ⟨k₀, v₀⟩ := p
      by_cases hk : k₀ = k
      · subst hk
        simp [mset]
      · simp only [mhas, mget, if_neg hk] at h
        simp [mset, hk, ih h]

theorem keys_mset_of_not_mem (k : K) (v : V) (l : List (K × V))
    (h : mhas k l = false) :
    (mset k v l).map Prod.fst = l.map Prod.fst ++ [k] := by
  induction l with
  | nil => simp [mset]
  | cons p t ih =>
      obtain ⟨k₀, v₀⟩ := p
      by_cases hk : k₀ = k
      · subst hk
        simp [mhas, mget] at h
      · simp only [mhas, mget, if_neg hk] at h
        simp [mset, hk, ih h]

theorem nodup_keys_mset (k : K) (v : V) (l : List (K × V))
    (hnd : (l.map Prod.fst).Nodup) : ((mset k v l).map Prod.fst).Nodup := by
  cases h : mhas k l with
  | true => rw [keys_mset_of_mem k v l h]; exact hnd
  | false =>
      rw [keys_mset_of_not_mem k v l h]
      have hk : k ∉ l.map Prod.fst := by
        apply mget_eq_none_iff.mp
        simpa [mhas, Option.isSome_iff_ne_none] using h
      have hdisj : (l.map Prod.fst).Disjoint [k] := by
        intro a ha hb
        simp only [List.mem_singleton] at hb
        subst hb
        exact hk ha
      exact hnd.append (List.nodup_singleton k) hdisj

theorem nodup_keys_sublist {l l' : List (K × V)} (h : l'.Sublist l)
    (hnd : (l.map Prod.fst).Nodup) : (l'.map Prod.fst).Nodup :=
  (h.map Prod.fst).nodup hnd

theorem mget_filter {k : K} (P : K × V → Bool) {l : List (K × V)}
    (hnd : (l.map Prod.fst).Nodup) :
    mget k (l.filter P) = (mget k l).filter (fun v => P (k, v)) := by
  induction l with
  | nil => simp [mget]
  | cons p t ih =>
      obtain ⟨k₀, v₀⟩ := p
      simp only [List.map_cons, List.nodup_cons] at hnd
      by_cases hk : k₀ = k
      · subst hk
        have hnone : mget k₀ (t.filter P) = none := by
          apply mget_eq_none_iff.mpr
          intro hmem
          exact hnd.1 (((t.filter_sublist (p := P)).map Prod.fst).subset hmem)
        cases hP : P (k₀, v₀)
        · simp [List.filter_cons, hP, hnone, Option.filter_some, mget]
        · simp [List.filter_cons, hP, mget, Option.filter_some]
      · cases hP : P (k₀, v₀) <;>
          simp [List.filter_cons, hP, mget, hk, ih hnd.2]

end MapLemmas

section FoldLemmas

set_option linter.unusedSectionVars false

variable {K V : Type} [DecidableEq K] [DecidableEq V]

theorem foldl_mdel_cons_of_not_mem (ds : List K) (k : K) (v : V)
    (t : List (K × V)) (h : k ∉ ds) :
    ds.foldl (fun acc id => mdel id acc) ((k, v) :: t) =
      (k, v) :: ds.foldl (fun acc id => mdel id acc) t := by
  induction ds generalizing t with
  | nil => rfl
  | cons d ds ih =>
      have hdk : ¬(k = d) := fun hh => h (hh ▸ List.mem_cons_self d ds)
      simp only [List.foldl_cons, mdel, if_neg hdk]
      exact ih _ (fun hm => h (List.mem_cons_of_mem _ hm))

theorem foldl_mdel_filter (Q : K × V → Bool) (l : List (K × V))
    (hnd : (l.map Prod.fst).Nodup) :
    ((l.filter (fun p => !(Q p))).map Prod.fst).foldl
        (fun acc id => mdel id acc) l = l.filter Q := by
  induction l with
  | nil => rfl
  | cons p t ih =>
      obtain ⟨k, v⟩ := p
      simp only [List.map_cons, List.nodup_cons] at hnd
      have hsub : ((t.filter (fun p => !(Q p))).map Prod.fst) ⊆
          t.map Prod.fst :=
        ((t.filter_sublist).map Prod.fst).subset
      cases hQ : Q (k, v)
      · have hlist : (((k, v) :: t).filter (fun p => !(Q p))).map Prod.fst
            = k :: (t.filter (fun p => !(Q p))).map Prod.fst := by
          simp [List.filter_cons, hQ]
        rw [hlist]
        simp only [List.foldl_cons]
        rw [show mdel k ((k, v) :: t) = t from by simp [mdel]]
        rw [ih hnd.2]
        simp [List.filter_cons, hQ]
      · have hlist : (((k, v) :: t).filter (fun p => !(Q p))).map Prod.fst
            = (t.filter (fun p => !(Q p))).map Prod.fst := by
          simp [List.filter_cons, hQ]
        rw [hlist]
        have hk : k ∉ (t.filter (fun p => !(Q p))).map Prod.fst :=
          fun hm => hnd.1 (hsub hm)
        rw [foldl_mdel_cons_of_not_mem _ k v t hk, ih hnd.2]
        simp [List.filter_cons, hQ]

theorem delFirstVal_eq_filter (v : V) (l : List (K × V))
    (h : l.countP (fun p => decide (p.2 = v)) ≤ 1) :
    delFirstVal v l = l.filter (fun p => !(decide (p.2 = v))) := by
  induction l with
  | nil => rfl
  | cons p t ih =>
      obtain ⟨k₀, v₀⟩ := p
      rw [List.countP_cons] at h
      by_cases hv : v₀ = v
      · subst hv
        rw [if_pos (by simp)] at h
        have ht : t.countP (fun p => decide (p.2 = v₀)) = 0 := by omega
        have hall : t.filter (fun p => !(decide (p.2 = v₀))) = t := by
          rw [List.filter_eq_self]
          intro a ha
          have := List.countP_eq_zero.mp ht a ha
          simpa using this
        rw [List.filter_cons, if_neg (by simp)]
        rw [hall]
        simp [delFirstVal]
      · rw [if_neg (by simp [hv])] at h
        have ht : t.countP (fun p => decide (p.2 = v)) ≤ 1 := by omega
        rw [List.filter_cons, if_pos (by simp [hv])]
        simp only [delFirstVal, if_neg hv]
        rw [ih ht]

theorem foldl_delFirstVal_filter (ds : List V) (l : List (K × V))
    (h : ∀ d ∈ ds, l.countP (fun p => decide (p.2 = d)) ≤ 1) :
    ds.foldl (fun acc d => delFirstVal d acc) l =
      l.filter (fun p => !(decide (p.2 ∈ ds))) := by
  induction ds generalizing l with
  | nil =>
      simp only [List.foldl_nil]
      symm
      rw [List.filter_eq_self]
      intro a ha
      simp
  | cons d ds ih =>
      simp only [List.foldl_cons]
      rw [delFirstVal_eq_filter d l (h d (List.mem_cons_self d ds))]
      rw [ih _ (fun d' hd' =>
        le_trans ((l.filter_sublist).countP_le _)
          (h d' (List.mem_cons_of_mem _ hd')))]
      rw [List.filter_filter]
      apply List.filter_congr
      intro p hp
      by_cases h1 : p.2 = d <;> by_cases h2 : p.2 ∈ ds <;>
        simp [h1, h2]

theorem foldl_mdel_sublist (ds : List K) (l : List (K × V)) :
    (ds.foldl (fun acc id => mdel id acc) l).Sublist l := by
  induction ds generalizing l with
  | nil => exact List.Sublist.refl l
  | cons d ds ih =>
      simp only [List.foldl_cons]
      exact (ih (mdel d l)).trans (mdel_sublist d l)

theorem foldl_delFirstVal_sublist (ds : List V) (l : List (K × V)) :
    (ds.foldl (fun acc d => delFirstVal d acc) l).Sublist l := by
  induction ds generalizing l with
  | nil => exact List.Sublist.refl l
  | cons d ds ih =>
      simp only [List.foldl_cons]
      exact (ih (delFirstVal d l)).trans (delFirstVal_sublist d l)

end FoldLemmas

open EventPool

section OnLemmas

variable (E E' : String) (H : HandlerId) (s : EventPool)

theorem on_fst : (on_ E H s).1 = s.nextId := rfl

theorem on_nextId : (on_ E H s).2.nextId = s.nextId + 1 := rfl

theorem mget_events_on_self :
    mget E ((on_ E H s).2.events) = some (mset s.nextId H (emOf E s)) := by
  unfold on_
  by_cases hh : mhas E s.events = true
  · rw [if_pos hh, mget_mset_self]
    simp [emOf]
  · have hn : mget E s.events = none := by
      rcases hopt : mget E s.events with _ | v
      · rfl
      · exact absurd (by simp [mhas, hopt]) hh
    rw [if_neg hh, mget_mset_self, mget_mset_self]
    simp [emOf, hn]

theorem mget_events_on_ne (h : E' ≠ E) :
    mget E' ((on_ E H s).2.events) = mget E' s.events := by
  unfold on_
  by_cases hh : mhas E s.events = true
  · rw [if_pos hh, mget_mset_ne _ _ _ _ h]
  · rw [if_neg hh, mget_mset_ne _ _ _ _ h, mget_mset_ne _ _ _ _ h]

theorem mget_hm_on_self :
    mget E ((on_ E H s).2.handlerMap) = some (mset H s.nextId (hmOf E s)) := by
  unfold on_
  by_cases hh : mhas E s.handlerMap = true
  · rw [if_pos hh, mget_mset_self]
    simp [hmOf]
  · have hn : mget E s.handlerMap = none := by
      rcases hopt : mget E s.handlerMap with _ | v
      · rfl
      · exact absurd (by simp [mhas, hopt]) hh
    rw [if_neg hh, mget_mset_self, mget_mset_self]
    simp [hmOf, hn]

theorem mget_hm_on_ne (h : E' ≠ E) :
    mget E' ((on_ E H s).2.handlerMap) = mget E' s.handlerMap := by
  unfold on_
  by_cases hh : mhas E s.handlerMap = true
  · rw [if_pos hh, mget_mset_ne _ _ _ _ h]
  · rw [if_neg hh, mget_mset_ne _ _ _ _ h, mget_mset_ne _ _ _ _ h]

end OnLemmas

section OffLemmas

variable (E E' : String) (H : HandlerId) (s : EventPool)

theorem off_eq_of_no_rev (h : mget H (hmOf E s) = none) : off E H s = s := by
  unfold off
  by_cases hg : (mhas E s.events && mhas E s.handlerMap) = true
  · simp [hg, h]
  · simp [hg]

theorem off_eq_of_events_none (h : mget E s.events = none) : off E H s = s := by
  unfold off
  have : mhas E s.events = false := by simp [mhas, h]
  simp [this]

theorem off_eq_of_hm_none (h : mget E s.handlerMap = none) : off E H s = s := by
  unfold off
  have : mhas E s.handlerMap = false := by simp [mhas, h]
  simp [this]

theorem off_eq_of_rev (hev : mhas E s.events = true)
    (hhm : mhas E s.handlerMap = true) {id : EventId}
    (h : mget H (hmOf E s) = some id) :
    off E H s =
      { s with events := mset E (mdel id (emOf E s)) s.events,
               handlerMap := mset E (mdel H (hmOf E s)) s.handlerMap } := by
  unfold off
  simp [hev, hhm, h]

theorem off_shape :
    off E H s = s ∨
    ∃ id, mget H (hmOf E s) = some id ∧ mhas E s.events = true ∧
      mhas E s.handlerMap = true ∧
      off E H s =
        { s with events := mset E (mdel id (emOf E s)) s.events,
                 handlerMap := mset E (mdel H (hmOf E s)) s.handlerMap } := by
  by_cases hev : mhas E s.events = true
  · by_cases hhm : mhas E s.handlerMap = true
    · cases h : mget H (hmOf E s) with
      | none => exact Or.inl (off_eq_of_no_rev E H s h)
      | some id =>
          exact Or.inr ⟨id, rfl, hev, hhm, off_eq_of_rev E H s hev hhm h⟩
    · refine Or.inl (off_eq_of_hm_none E H s ?_)
      simpa [mhas, Option.isSome_iff_ne_none] using hhm
  · refine Or.inl (off_eq_of_events_none E H s ?_)
    simpa [mhas, Option.isSome_iff_ne_none] using hev

theorem off_nextId : (off E H s).nextId = s.nextId := by
  rcases off_shape E H s with h | ⟨id, _, _, _, h⟩ <;> rw [h]

theorem mget_events_off_ne (h : E' ≠ E) :
    mget E' ((off E H s).events) = mget E' s.events := by
  rcases off_shape E H s with hs | ⟨id, _, _, _, hs⟩ <;> rw [hs]
  exact mget_mset_ne _ _ _ _ h

theorem mget_hm_off_ne (h : E' ≠ E) :
    mget E' ((off E H s).handlerMap) = mget E' s.handlerMap := by
  rcases off_shape E H s with hs | ⟨id, _, _, _, hs⟩ <;> rw [hs]
  exact mget_mset_ne _ _ _ _ h

theorem keys_events_off :
    ((off E H s).events).map Prod.fst = s.events.map Prod.fst := by
  rcases off_shape E H s with hs | ⟨id, _, hev, _, hs⟩ <;> rw [hs]
  exact keys_mset_of_mem _ _ _ hev

theorem keys_hm_off :
    ((off E H s).handlerMap).map Prod.fst = s.handlerMap.map Prod.fst := by
  rcases off_shape E H s with hs | ⟨id, _, _, hhm, hs⟩ <;> rw [hs]
  exact keys_mset_of_mem _ _ _ hhm

end OffLemmas

section CleanLemmas

variable (live : HandlerId → Bool) (E E' : String) (s : EventPool)

theorem clean_of_events_none (h : mget E s.events = none) :
    cleanDeadHandlers live E s = s := by
  unfold cleanDeadHandlers
  rw [h]

theorem clean_of_hm_none (h : mget E s.handlerMap = none) :
    cleanDeadHandlers live E s = s := by
  unfold cleanDeadHandlers
  rw [h]
  cases mget E s.events <;> rfl

theorem clean_eq {em : List (EventId × HandlerId)}
    {hm : List (HandlerId × EventId)} (hev : mget E s.events = some em)
    (hhm : mget E s.handlerMap = some hm) :
    cleanDeadHandlers live E s =
      { s with
        events := mset E
          (((em.filter (fun p => !(live p.2))).map Prod.fst).foldl
            (fun acc id => mdel id acc) em) s.events,
        handlerMap := mset E
          (((em.filter (fun p => !(live p.2))).map Prod.fst).foldl
            (fun acc d => delFirstVal d acc) hm) s.handlerMap } := by
  unfold cleanDeadHandlers
  rw [hev, hhm]

theorem clean_nextId : (cleanDeadHandlers live E s).nextId = s.nextId := by
  rcases hev : mget E s.events with _ | em
  · rw [clean_of_events_none live E s hev]
  · rcases hhm : mget E s.handlerMap with _ | hm
    · rw [clean_of_hm_none live E s hhm]
    · rw [clean_eq live E s hev hhm]

theorem mget_events_clean_ne (h : E' ≠ E) :
    mget E' ((cleanDeadHandlers live E s).events) = mget E' s.events := by
  rcases hev : mget E s.events with _ | em
  · rw [clean_of_events_none live E s hev]
  · rcases hhm : mget E s.handlerMap with _ | hm
    · rw [clean_of_hm_none live E s hhm]
    · rw [clean_eq live E s hev hhm]
      exact mget_mset_ne _ _ _ _ h

theorem mget_hm_clean_ne (h : E' ≠ E) :
    mget E' ((cleanDeadHandlers live E s).handlerMap) =
      mget E' s.handlerMap := by
  rcases hev : mget E s.events with _ | em
  · rw [clean_of_events_none live E s hev]
  · rcases hhm : mget E s.handlerMap with _ | hm
    · rw [clean_of_hm_none live E s hhm]
    · rw [clean_eq live E s hev hhm]
      exact mget_mset_ne _ _ _ _ h

theorem mget_events_clean_self {em : List (EventId × HandlerId)}
    {hm : List (HandlerId × EventId)} (hev : mget E s.events = some em)
    (hhm : mget E s.handlerMap = some hm)
    (hnd : (em.map Prod.fst).Nodup) :
    mget E ((cleanDeadHandlers live E s).events) =
      some (em.filter (fun p => live p.2)) := by
  rw [clean_eq live E s hev hhm]
  show mget E (mset E _ s.events) = _
  rw [mget_mset_self]
  rw [foldl_mdel_filter (fun p => live p.2) em hnd]

theorem mget_hm_clean_self {em : List (EventId × HandlerId)}
    {hm : List (HandlerId × EventId)} (hev : mget E s.events = some em)
    (hhm : mget E s.handlerMap = some hm) :
    mget E ((cleanDeadHandlers live E s).handlerMap) =
      some (((em.filter (fun p => !(live p.2))).map Prod.fst).foldl
        (fun acc d => delFirstVal d acc) hm) := by
  rw [clean_eq live E s hev hhm]
  show mget E (mset E _ s.handlerMap) = _
  rw [mget_mset_self]

theorem keys_events_clean :
    ((cleanDeadHandlers live E s).events).map Prod.fst =
      s.events.map Prod.fst := by
  rcases hev : mget E s.events with _ | em
  · rw [clean_of_events_none live E s hev]
  · rcases hhm : mget E s.handlerMap with _ | hm
    · rw [clean_of_hm_none live E s hhm]
    · rw [clean_eq live E s hev hhm]
      exact keys_mset_of_mem _ _ _ (by simp [mhas, hev])

theorem keys_hm_clean :
    ((cleanDeadHandlers live E s).handlerMap).map Prod.fst =
      s.handlerMap.map Prod.fst := by
  rcases hev : mget E s.events with _ | em
  · rw [clean_of_events_none live E s hev]
  · rcases hhm : mget E s.handlerMap with _ | hm
    · rw [clean_of_hm_none live E s hhm]
    · rw [clean_eq live E s hev hhm]
      exact keys_mset_of_mem _ _ _ (by simp [mhas, hhm])

theorem clean_eq_self_of_allLive
    (hall : ∀ p ∈ emOf E s, live p.2 = true) :
    cleanDeadHandlers live E s = s := by
  rcases hev : mget E s.events with _ | em
  · exact clean_of_events_none live E s hev
  · rcases hhm : mget E s.handlerMap with _ | hm
    · exact clean_of_hm_none live E s hhm
    · rw [clean_eq live E s hev hhm]
      have hdead : em.filter (fun p => !(live p.2)) = [] := by
        rw [List.filter_eq_nil_iff]
        intro p hp
        have := hall p (by simp [emOf, hev, hp])
        simp [this]
      rw [hdead]
      simp only [List.map_nil, List.foldl_nil]
      rw [mset_eq_self _ _ _ hev, mset_eq_self _ _ _ hhm]

/-- The entries surviving a clean form a sublist of the original table. -/
theorem clean_events_sublist {em : List (EventId × HandlerId)}
    {hm : List (HandlerId × EventId)} (hev : mget E s.events = some em)
    (hhm : mget E s.handlerMap = some hm) :
    ∃ em₂, mget E ((cleanDeadHandlers live E s).events) = some em₂ ∧
      em₂.Sublist em := by
  rw [clean_eq live E s hev hhm]
  refine ⟨((em.filter (fun p => !(live p.2))).map Prod.fst).foldl
    (fun acc id => mdel id acc) em, ?_, foldl_mdel_sublist _ em⟩
  show mget E (mset E _ s.events) = _
  rw [mget_mset_self]

end CleanLemmas

section SweepLemmas

variable (live : HandlerId → Bool)

theorem foldl_clean_keys_events (es : List String) (s : EventPool) :
    ((es.foldl (fun acc e => cleanDeadHandlers live e acc) s).events).map
        Prod.fst = s.events.map Prod.fst := by
  induction es generalizing s with
  | nil => rfl
  | cons e es ih =>
      simp only [List.foldl_cons]
      rw [ih, keys_events_clean]

theorem foldl_clean_keys_hm (es : List String) (s : EventPool) :
    ((es.foldl (fun acc e => cleanDeadHandlers live e acc) s).handlerMap).map
        Prod.fst = s.handlerMap.map Prod.fst := by
  induction es generalizing s with
  | nil => rfl
  | cons e es ih =>
      simp only [List.foldl_cons]
      rw [ih, keys_hm_clean]

theorem foldl_clean_nextId (es : List String) (s : EventPool) :
    (es.foldl (fun acc e => cleanDeadHandlers live e acc) s).nextId =
      s.nextId := by
  induction es generalizing s with
  | nil => rfl
  | cons e es ih =>
      simp only [List.foldl_cons]
      rw [ih, clean_nextId]

theorem keys_events_sweep (s : EventPool) :
    ((sweepDeadHandlers live s).events).map Prod.fst =
      s.events.map Prod.fst :=
  foldl_clean_keys_events live _ s

theorem keys_hm_sweep (s : EventPool) :
    ((sweepDeadHandlers live s).handlerMap).map Prod.fst =
      s.handlerMap.map Prod.fst :=
  foldl_clean_keys_hm live _ s

end SweepLemmas

section OtherOpLemmas

theorem mget_events_removeAllListeners_ne (E E' : String) (s : EventPool)
    (h : E' ≠ E) :
    mget E' ((removeAllListeners E s).events) = mget E' s.events :=
  mget_mdel_ne _ _ _ h

theorem mget_hm_removeAllListeners_ne (E E' : String) (s : EventPool)
    (h : E' ≠ E) :
    mget E' ((removeAllListeners E s).handlerMap) = mget E' s.handlerMap :=
  mget_mdel_ne _ _ _ h

theorem findOwner_eq_none (id : EventId)
    (l : List (String × List (EventId × HandlerId)))
    (h : ∀ p ∈ l, mhas id p.2 = false) : findOwner id l = none := by
  induction l with
  | nil => rfl
  | cons p t ih =>
      obtain ⟨e, em⟩ := p
      have he := h (e, em) (List.mem_cons_self _ _)
      simp only [findOwner, he]
      rw [if_neg (by simp)]
      exact ih (fun q hq => h q (List.mem_cons_of_mem _ hq))

theorem findOwner_mem {id : EventId}
    {l : List (String × List (EventId × HandlerId))}
    {e : String} {em : List (EventId × HandlerId)}
    (h : findOwner id l = some (e, em)) : (e, em) ∈ l ∧ mhas id em = true := by
  induction l with
  | nil => simp [findOwner] at h
  | cons p t ih =>
      obtain ⟨e₀, em₀⟩ := p
      by_cases hh : mhas id em₀ = true
      · rw [findOwner, if_pos hh] at h
        injection h with h
        injection h with h1 h2
        subst h1
        subst h2
        exact ⟨List.mem_cons_self _ _, hh⟩
      · rw [findOwner, if_neg hh] at h
        obtain ⟨hmem, hhas⟩ := ih h
        exact ⟨List.mem_cons_of_mem _ hmem, hhas⟩

theorem findOwner_first {id : EventId}
    {l : List (String × List (EventId × HandlerId))}
    {e : String} {em : List (EventId × HandlerId)}
    (hnd : (l.map Prod.fst).Nodup) (h : findOwner id l = some (e, em)) :
    mget e l = some em := by
  obtain ⟨hmem, _⟩ := findOwner_mem h
  exact mget_eq_some_of_mem hnd hmem

theorem offById_eq_of_none (live : HandlerId → Bool) (id : EventId)
    (s : EventPool) (h : findOwner id s.events = none) :
    offById live id s = s := by
  unfold offById
  rw [h]

theorem mhas_of_mem {K V : Type} [DecidableEq K] [DecidableEq V] {k : K}
    {v : V} {l : List (K × V)} (h : (k, v) ∈ l) : mhas k l = true := by
  have := mget_isSome_of_mem h
  simp only [mhas]
  rcases ho : mget k l with _ | w
  · exact absurd ho this
  · rfl

theorem offById_eq_of_some (live : HandlerId → Bool) (id : EventId)
    (s : EventPool) {e : String} {em : List (EventId × HandlerId)}
    (h : findOwner id s.events = some (e, em)) :
    offById live id s =
      { s with
        events := mset e (mdel id em) s.events,
        handlerMap :=
          match (mget id em).bind (deref live), mget e s.handlerMap with
          | some hv, some hm => mset e (mdel hv hm) s.handlerMap
          | _, _ => s.handlerMap } := by
  unfold offById
  rw [h]

theorem offById_nextId (live : HandlerId → Bool) (id : EventId)
    (s : EventPool) : (offById live id s).nextId = s.nextId := by
  rcases h : findOwner id s.events with _ | ⟨e, em⟩
  · rw [offById_eq_of_none live id s h]
  · rw [offById_eq_of_some live id s h]

theorem keys_events_offById (live : HandlerId → Bool) (id : EventId)
    (s : EventPool) :
    ((offById live id s).events).map Prod.fst = s.events.map Prod.fst := by
  rcases h : findOwner id s.events with _ | ⟨e, em⟩
  · rw [offById_eq_of_none live id s h]
  · rw [offById_eq_of_some live id s h]
    exact keys_mset_of_mem _ _ _ (mhas_of_mem (findOwner_mem h).1)

theorem keys_hm_offById (live : HandlerId → Bool) (id : EventId)
    (s : EventPool) :
    ((offById live id s).handlerMap).map Prod.fst =
      s.handlerMap.map Prod.fst := by
  rcases h : findOwner id s.events with _ | ⟨e, em⟩
  · rw [offById_eq_of_none live id s h]
  · rw [offById_eq_of_some live id s h]
    rcases hd : (mget id em).bind (deref live) with _ | hv
    · simp [hd]
    · rcases hm : mget e s.handlerMap with _ | hmv
      · simp [hd, hm]
      · simp only [hd, hm]
        exact keys_mset_of_mem _ _ _ (by simp [mhas, hm])

theorem mget_events_offById_ne (live : HandlerId → Bool) (id : EventId)
    (E E' : String) (s : EventPool) (hne : E' ≠ E)
    (h : ∀ p ∈ s.events, p.1 ≠ E → mhas id p.2 = false) :
    mget E' ((offById live id s).events) = mget E' s.events := by
  rcases ho : findOwner id s.events with _ | ⟨e, em⟩
  · rw [offById_eq_of_none live id s ho]
  · obtain ⟨hmem, hhas⟩ := findOwner_mem ho
    have he : e = E := by
      by_contra hc
      exact absurd hhas (by simp [h (e, em) hmem hc])
    subst he
    rw [offById_eq_of_some live id s ho]
    exact mget_mset_ne _ _ _ _ hne

theorem mget_hm_offById_ne (live : HandlerId → Bool) (id : EventId)
    (E E' : String) (s : EventPool) (hne : E' ≠ E)
    (h : ∀ p ∈ s.events, p.1 ≠ E → mhas id p.2 = false) :
    mget E' ((offById live id s).handlerMap) = mget E' s.handlerMap := by
  rcases ho : findOwner id s.events with _ | ⟨e, em⟩
  · rw [offById_eq_of_none live id s ho]
  · obtain ⟨hmem, hhas⟩ := findOwner_mem ho
    have he : e = E := by
      by_contra hc
      exact absurd hhas (by simp [h (e, em) hmem hc])
    have hne' : E' ≠ e := he.symm ▸ hne
    rw [offById_eq_of_some live id s ho]
    rcases hd : (mget id em).bind (deref live) with _ | hv
    · simp [hd]
    · rcases hm : mget e s.handlerMap with _ | hmv
      · simp [hd, hm]
      · simp only [hd, hm]
        exact mget_mset_ne _ _ _ _ hne'

theorem mem_mset_ne {K V : Type} [DecidableEq K] {p : K × V} {k : K}
    {v : V} {l : List (K × V)} (h : p ∈ mset k v l) (hne : p.1 ≠ k) :
    p ∈ l := by
  induction l with
  | nil =>
      simp only [mset, List.mem_singleton] at h
      exact absurd (by rw [h]) hne
  | cons q t ih =>
      obtain ⟨k₀, v₀⟩ := q
      by_cases hk : k₀ = k
      · subst hk
        rw [mset, if_pos rfl] at h
        rcases List.mem_cons.mp h with h | h
        · exact absurd (by rw [h]) hne
        · exact List.mem_cons_of_mem _ h
      · rw [mset, if_neg hk] at h
        rcases List.mem_cons.mp h with h | h
        · exact h ▸ List.mem_cons_self _ _
        · exact List.mem_cons_of_mem _ (ih h)

theorem mhas_false_of_bound {n : Nat} {V : Type} [DecidableEq V]
    {l : List (Nat × V)} (h : ∀ q ∈ l, q.1 < n) : mhas n l = false := by
  rcases ho : mget n l with _ | v
  · simp [mhas, ho]
  · have := h (n, v) (mget_mem ho)
    omega

theorem findOwner_eq_of_first {id : EventId}
    {l : List (String × List (EventId × HandlerId))} {E : String}
    {em : List (EventId × HandlerId)} (hget : mget E l = some em)
    (hhas : mhas id em = true)
    (hothers : ∀ p ∈ l, p.1 ≠ E → mhas id p.2 = false) :
    findOwner id l = some (E, em) := by
  induction l with
  | nil => simp [mget] at hget
  | cons q t ih =>
      obtain ⟨e₀, em₀⟩ := q
      by_cases hk : e₀ = E
      · subst hk
        rw [mget, if_pos rfl] at hget
        injection hget with hget
        subst hget
        rw [findOwner, if_pos hhas]
      · rw [mget, if_neg hk] at hget
        have h0 : mhas id em₀ = false :=
          hothers (e₀, em₀) (List.mem_cons_self _ _) hk
        rw [findOwner, if_neg (by simp [h0])]
        exact ih hget (fun p hp => hothers p (List.mem_cons_of_mem _ hp))

theorem mem_events_on {p : String × List (EventId × HandlerId)}
    {E : String} {H : HandlerId} {s : EventPool}
    (h : p ∈ (on_ E H s).2.events) (hne : p.1 ≠ E) : p ∈ s.events := by
  unfold on_ at h
  simp only at h
  have h1 := mem_mset_ne h hne
  by_cases hh : mhas E s.events = true
  · rwa [if_pos hh] at h1
  · rw [if_neg hh] at h1
    exact mem_mset_ne h1 hne

end OtherOpLemmas

section CleanWF

variable (live : HandlerId → Bool)

theorem mem_mset_cases {K V : Type} [DecidableEq K] {p : K × V} {k : K}
    {v : V} {l : List (K × V)} (h : p ∈ mset k v l) : p = (k, v) ∨ p ∈ l := by
  induction l with
  | nil => simpa [mset] using h
  | cons q t ih =>
      obtain ⟨k₀, v₀⟩ := q
      by_cases hk : k₀ = k
      · subst hk
        rw [mset, if_pos rfl] at h
        rcases List.mem_cons.mp h with h | h
        · exact Or.inl h
        · exact Or.inr (List.mem_cons_of_mem _ h)
      · rw [mset, if_neg hk] at h
        rcases List.mem_cons.mp h with h | h
        · exact Or.inr (h ▸ List.mem_cons_self _ _)
        · rcases ih h with h | h
          · exact Or.inl h
          · exact Or.inr (List.mem_cons_of_mem _ h)

theorem clean_WF {E : String} {s : EventPool} (hWF : WFPool s) :
    WFPool (cleanDeadHandlers live E s) := by
  obtain ⟨hoE, hoH, hiE, hiH⟩ := hWF
  rcases hev : mget E s.events with _ | em
  · rw [clean_of_events_none live E s hev]
    exact ⟨hoE, hoH, hiE, hiH⟩
  · rcases hhm : mget E s.handlerMap with _ | hm
    · rw [clean_of_hm_none live E s hhm]
      exact ⟨hoE, hoH, hiE, hiH⟩
    · have hemnd : (em.map Prod.fst).Nodup := hiE (E, em) (mget_mem hev)
      have hhmnd : (hm.map Prod.fst).Nodup := hiH (E, hm) (mget_mem hhm)
      rw [clean_eq live E s hev hhm]
      refine ⟨?_, ?_, ?_, ?_⟩
      · rw [keys_mset_of_mem _ _ _ (by simp [mhas, hev])]
        exact hoE
      · rw [keys_mset_of_mem _ _ _ (by simp [mhas, hhm])]
        exact hoH
      · intro p hp
        rcases mem_mset_cases hp with hp | hp
        · subst hp
          exact nodup_keys_sublist (foldl_mdel_sublist _ em) hemnd
        · exact hiE p hp
      · intro p hp
        rcases mem_mset_cases hp with hp | hp
        · subst hp
          exact nodup_keys_sublist (foldl_delFirstVal_sublist _ hm) hhmnd
        · exact hiH p hp

theorem emOf_clean_ne {E E' : String} {s : EventPool} (h : E' ≠ E) :
    emOf E' (cleanDeadHandlers live E s) = emOf E' s := by
  unfold emOf
  rw [mget_events_clean_ne live E E' s h]

theorem emOf_clean_sublist (E E' : String) (s : EventPool) :
    (emOf E' (cleanDeadHandlers live E s)).Sublist (emOf E' s) := by
  by_cases h : E' = E
  · subst h
    rcases hev : mget E' s.events with _ | em
    · rw [clean_of_events_none live E' s hev]
    · rcases hhm : mget E' s.handlerMap with _ | hm
      · rw [clean_of_hm_none live E' s hhm]
      · obtain ⟨em₂, hg, hsub⟩ := clean_events_sublist live E' s hev hhm
        rw [emOf, hg]
        rw [emOf, hev]
        exact hsub
  · rw [emOf_clean_ne live h]

theorem mget_events_none_clean {E E' : String} {s : EventPool}
    (h : mget E' s.events = none) :
    mget E' ((cleanDeadHandlers live E s).events) = none := by
  rw [mget_eq_none_iff, keys_events_clean]
  exact mget_eq_none_iff.mp h

theorem mget_hm_none_clean {E E' : String} {s : EventPool}
    (h : mget E' s.handlerMap = none) :
    mget E' ((cleanDeadHandlers live E s).handlerMap) = none := by
  rw [mget_eq_none_iff, keys_hm_clean]
  exact mget_eq_none_iff.mp h

theorem cleanAt_preserved {E E' : String} {s : EventPool}
    (h : (∀ p ∈ emOf E' s, live p.2 = true) ∨ mget E' s.events = none ∨
      mget E' s.handlerMap = none) :
    (∀ p ∈ emOf E' (cleanDeadHandlers live E s), live p.2 = true) ∨
      mget E' ((cleanDeadHandlers live E s).events) = none ∨
      mget E' ((cleanDeadHandlers live E s).handlerMap) = none := by
  rcases h with h | h | h
  · exact Or.inl (fun p hp => h p ((emOf_clean_sublist live E E' s).subset hp))
  · exact Or.inr (Or.inl (mget_events_none_clean live h))
  · exact Or.inr (Or.inr (mget_hm_none_clean live h))

theorem cleanAt_self {E : String} {s : EventPool} (hWF : WFPool s) :
    (∀ p ∈ emOf E (cleanDeadHandlers live E s), live p.2 = true) ∨
      mget E ((cleanDeadHandlers live E s).events) = none ∨
      mget E ((cleanDeadHandlers live E s).handlerMap) = none := by
  rcases hev : mget E s.events with _ | em
  · rw [clean_of_events_none live E s hev]
    exact Or.inr (Or.inl hev)
  · rcases hhm : mget E s.handlerMap with _ | hm
    · rw [clean_of_hm_none live E s hhm]
      exact Or.inr (Or.inr hhm)
    · have hemnd : (em.map Prod.fst).Nodup := hWF.2.2.1 (E, em) (mget_mem hev)
      left
      intro p hp
      rw [emOf, mget_events_clean_self live E s hev hhm hemnd] at hp
      simp only [Option.getD_some] at hp
      exact (List.mem_filter.mp hp).2

theorem clean_eq_self_of_cleanAt {E : String} {s : EventPool}
    (h : (∀ p ∈ emOf E s, live p.2 = true) ∨ mget E s.events = none ∨
      mget E s.handlerMap = none) :
    cleanDeadHandlers live E s = s := by
  rcases h with h | h | h
  · exact clean_eq_self_of_allLive live E s h
  · exact clean_of_events_none live E s h
  · exact clean_of_hm_none live E s h

theorem foldl_clean_WF (es : List String) {s : EventPool} (hWF : WFPool s) :
    WFPool (es.foldl (fun acc e => cleanDeadHandlers live e acc) s) := by
  induction es generalizing s with
  | nil => exact hWF
  | cons e es ih =>
      simp only [List.foldl_cons]
      exact ih (clean_WF live hWF)

theorem foldl_clean_cleanAt (es : List String) {s : EventPool}
    (hWF : WFPool s) (E : String)
    (h : E ∈ es ∨ (∀ p ∈ emOf E s, live p.2 = true) ∨
      mget E s.events = none ∨ mget E s.handlerMap = none) :
    (∀ p ∈ emOf E (es.foldl (fun acc e => cleanDeadHandlers live e acc) s),
      live p.2 = true) ∨
    mget E ((es.foldl (fun acc e => cleanDeadHandlers live e acc) s).events)
      = none ∨
    mget E ((es.foldl (fun acc e => cleanDeadHandlers live e acc)
      s).handlerMap) = none := by
  induction es generalizing s with
  | nil =>
      rcases h with h | h
      · simp at h
      · exact h
  | cons e es ih =>
      simp only [List.foldl_cons]
      have hWF1 := clean_WF live (E := e) (s := s) hWF
      rcases h with h | h
      · rcases List.mem_cons.mp h with h | h
        · subst h
          exact ih hWF1 (Or.inr (cleanAt_self live hWF))
        · exact ih hWF1 (Or.inl h)
      · exact ih hWF1 (Or.inr (cleanAt_preserved live h))

theorem sweep_cleanAt {s : EventPool} (hWF : WFPool s) (E : String) :
    (∀ p ∈ emOf E (sweepDeadHandlers live s), live p.2 = true) ∨
    mget E ((sweepDeadHandlers live s).events) = none ∨
    mget E ((sweepDeadHandlers live s).handlerMap) = none := by
  by_cases h : E ∈ s.events.map Prod.fst
  · exact foldl_clean_cleanAt live _ hWF E (Or.inl h)
  · exact foldl_clean_cleanAt live _ hWF E
      (Or.inr (Or.inr (Or.inl (mget_eq_none_iff.mpr h))))

theorem foldl_clean_id_of_cleanAt (es : List String) {s : EventPool}
    (h : ∀ E, (∀ p ∈ emOf E s, live p.2 = true) ∨ mget E s.events = none ∨
      mget E s.handlerMap = none) :
    es.foldl (fun acc e => cleanDeadHandlers live e acc) s = s := by
  induction es with
  | nil => rfl
  | cons e es ih =>
      simp only [List.foldl_cons]
      rw [clean_eq_self_of_cleanAt live (h e)]
      exact ih

theorem mget_em_clean_preserves_live {E E' : String} {s : EventPool}
    {id : EventId} {h : HandlerId} (hWF : WFPool s)
    (hget : mget id (emOf E' s) = some h) (hlive : live h = true) :
    mget id (emOf E' (cleanDeadHandlers live E s)) = some h := by
  by_cases he : E' = E
  · subst he
    rcases hev : mget E' s.events with _ | em
    · rw [clean_of_events_none live E' s hev]
      exact hget
    · rcases hhm : mget E' s.handlerMap with _ | hm
      · rw [clean_of_hm_none live E' s hhm]
        exact hget
      · have hemnd : (em.map Prod.fst).Nodup :=
          hWF.2.2.1 (E', em) (mget_mem hev)
        rw [emOf, mget_events_clean_self live E' s hev hhm hemnd]
        rw [emOf, hev] at hget
        simp only [Option.getD_some] at hget
        simp only [Option.getD_some]
        rw [mget_filter (fun p => live p.2) hemnd, hget]
        simp [Option.filter_some, hlive]
  · rw [emOf_clean_ne live he]
    exact hget

theorem foldl_clean_preserves_live (es : List String) {E : String}
    {s : EventPool} {id : EventId} {h : HandlerId} (hWF : WFPool s)
    (hget : mget id (emOf E s) = some h) (hlive : live h = true) :
    mget id (emOf E
      (es.foldl (fun acc e => cleanDeadHandlers live e acc) s)) = some h := by
  induction es generalizing s with
  | nil => exact hget
  | cons e es ih =>
      simp only [List.foldl_cons]
      exact ih (clean_WF live hWF)
        (mget_em_clean_preserves_live live hWF hget hlive)

end CleanWF

section EmitLemmas

theorem firstUnvisited_mem {visited : List EventId}
    {l : List (EventId × HandlerId)} {id : EventId} {h : HandlerId}
    (hf : firstUnvisited visited l = some (id, h)) : (id, h) ∈ l := by
  induction l with
  | nil => simp [firstUnvisited] at hf
  | cons q t ih =>
      obtain ⟨id₀, h₀⟩ := q
      by_cases hv : visited.contains id₀
      · rw [firstUnvisited, if_pos hv] at hf
        exact List.mem_cons_of_mem _ (ih hf)
      · rw [firstUnvisited, if_neg hv] at hf
        injection hf with hf
        exact hf ▸ List.mem_cons_self _ _

theorem emitLoop_plain_state (live : HandlerId → Bool)
    (β : HandlerId → HKind) (E : String) (x : Nat) (fuel : Nat)
    (visited : List EventId) (s : EventPool)
    (hplain : ∀ q ∈ (mget E s.events).getD [], β q.2 = HKind.plain) :
    (emitLoop live β E x fuel visited s).1 = s := by
  induction fuel generalizing visited with
  | zero => rfl
  | succ fuel ih =>
      unfold emitLoop
      cases hev : mget E s.events with
      | none => rfl
      | some em =>
          dsimp only
          cases hfu : firstUnvisited visited em with
          | none => rfl
          | some q =>
              obtain ⟨id, h⟩ := q
              have hβ : β h = HKind.plain :=
                hplain (id, h) (by rw [hev]; exact firstUnvisited_mem hfu)
              dsimp only
              cases hd : deref live h with
              | none => exact ih (id :: visited)
              | some hh =>
                  dsimp only
                  rw [hβ]
                  exact ih (id :: visited)

theorem emit_state_of_plain (live : HandlerId → Bool) (β : HandlerId → HKind)
    (E : String) (x : Nat) (s : EventPool)
    (hplain : ∀ q ∈ emOf E s, β q.2 = HKind.plain) :
    (emit live β E x s).1 = cleanDeadHandlers live E s := by
  have hplain1 : ∀ q ∈ emOf E (cleanDeadHandlers live E s),
      β q.2 = HKind.plain :=
    fun q hq => hplain q ((emOf_clean_sublist live E E s).subset hq)
  unfold emit
  dsimp only
  cases hev : mget E ((cleanDeadHandlers live E s).events) with
  | none => rfl
  | some em =>
      dsimp only
      exact emitLoop_plain_state live β E x em.length [] _
        (fun q hq => hplain1 q hq)

theorem firstUnvisited_eq_head (visited : List EventId)
    (l : List (EventId × HandlerId)) :
    firstUnvisited visited l =
      (l.filter (fun q => !(visited.contains q.1))).head? := by
  induction l with
  | nil => rfl
  | cons q t ih =>
      obtain ⟨id, h⟩ := q
      by_cases hv : visited.contains id
      · rw [firstUnvisited, if_pos hv, List.filter_cons,
          if_neg (by simpa using hv), ih]
      · rw [firstUnvisited, if_neg hv, List.filter_cons,
          if_pos (by simpa using hv)]
        rfl

theorem mset_append_of_not_mem {K V : Type} [DecidableEq K] {k : K} (v : V)
    {l : List (K × V)} (h : mget k l = none) : mset k v l = l ++ [(k, v)] := by
  induction l with
  | nil => rfl
  | cons q t ih =>
      obtain ⟨k₀, v₀⟩ := q
      by_cases hk : k₀ = k
      · subst hk
        simp [mget] at h
      · rw [mget, if_neg hk] at h
        rw [mset, if_neg hk, List.cons_append, ih h]

theorem emitLoop_plain_log (live : HandlerId → Bool) (β : HandlerId → HKind)
    (E : String) (x : Nat) {em : List (EventId × HandlerId)} {s : EventPool}
    (hev : mget E s.events = some em) (hnd : (em.map Prod.fst).Nodup)
    (hall : ∀ q ∈ em, live q.2 = true ∧ β q.2 = HKind.plain) :
    ∀ fuel visited,
      (em.filter (fun q => !(visited.contains q.1))).length ≤ fuel →
      (emitLoop live β E x fuel visited s).2 =
        (em.filter (fun q => !(visited.contains q.1))).map
          (fun q => (q.2, x)) := by
  intro fuel
  induction fuel with
  | zero =>
      intro visited hlen
      have : em.filter (fun q => !(visited.contains q.1)) = [] :=
        List.length_eq_zero.mp (Nat.le_zero.mp hlen)
      rw [this]
      rfl
  | succ fuel ih =>
      intro visited hlen
      unfold emitLoop
      rw [hev]
      dsimp only
      rw [firstUnvisited_eq_head visited em]
      cases hfil : em.filter (fun q => !(visited.contains q.1)) with
      | nil => rfl
      | cons q rest =>
          obtain ⟨id, h⟩ := q
          dsimp only [List.head?]
          have hqmem : (id, h) ∈ em :=
            (em.filter_sublist).subset (hfil ▸ List.mem_cons_self _ _)
          obtain ⟨hlive, hβ⟩ := hall (id, h) hqmem
          rw [show deref live h = some h from by simp [deref, hlive], hβ]
          dsimp only
          have hfilnd : ((em.filter
              (fun q => !(visited.contains q.1))).map Prod.fst).Nodup :=
            nodup_keys_sublist (em.filter_sublist) hnd
          rw [hfil] at hfilnd
          simp only [List.map_cons, List.nodup_cons] at hfilnd
          have hrest : em.filter (fun q => !((id :: visited).contains q.1)) =
              rest := by
            have h1 : em.filter (fun q => !((id :: visited).contains q.1)) =
                (em.filter (fun q => !(visited.contains q.1))).filter
                  (fun q => !(q.1 == id)) := by
              rw [List.filter_filter]
              apply List.filter_congr
              intro q hq
              by_cases h1 : q.1 = id <;> by_cases h2 : visited.contains q.1 <;>
                simp [h1, h2]
            rw [h1, hfil, List.filter_cons, if_neg (by simp)]
            rw [List.filter_eq_self]
            intro a ha
            have : a.1 ≠ id := by
              intro hc
              exact hfilnd.1 (List.mem_map.mpr ⟨a, ha, hc⟩)
            simp [this]
          have hlen' : (em.filter
              (fun q => !((id :: visited).contains q.1))).length ≤ fuel := by
            rw [hrest]
            have := hlen
            rw [hfil] at this
            simpa using Nat.le_of_succ_le_succ this
          have := ih (id :: visited) hlen'
          rw [hrest] at this
          rw [this]
          rfl

theorem emit_plain_log (live : HandlerId → Bool) (β : HandlerId → HKind)
    (E : String) (x : Nat) {em : List (EventId × HandlerId)}
    {hm : List (HandlerId × EventId)} {s : EventPool}
    (hev : mget E s.events = some em) (hhm : mget E s.handlerMap = some hm)
    (hnd : (em.map Prod.fst).Nodup)
    (hplain : ∀ q ∈ em, β q.2 = HKind.plain) :
    (emit live β E x s).2 =
      (em.filter (fun q => live q.2)).map (fun q => (q.2, x)) := by
  have hev1 : mget E ((cleanDeadHandlers live E s).events) =
      some (em.filter (fun q => live q.2)) :=
    mget_events_clean_self live E s hev hhm hnd
  have hnd1 : ((em.filter (fun q => live q.2)).map Prod.fst).Nodup :=
    nodup_keys_sublist (em.filter_sublist) hnd
  have hall1 : ∀ q ∈ em.filter (fun q => live q.2),
      live q.2 = true ∧ β q.2 = HKind.plain := by
    intro q hq
    obtain ⟨hqm, hqlive⟩ := List.mem_filter.mp hq
    exact ⟨hqlive, hplain q hqm⟩
  unfold emit
  dsimp only
  rw [hev1]
  dsimp only
  have hstart : (em.filter (fun q => live q.2)).filter
      (fun q => !(([] : List EventId).contains q.1)) =
      em.filter (fun q => live q.2) := by
    rw [List.filter_eq_self]
    intro a ha
    simp
  have := emitLoop_plain_log live β E x hev1 hnd1 hall1
    (em.filter (fun q => live q.2)).length []
    (by rw [hstart])
  rw [hstart] at this
  exact this

theorem emitLoop_one_wrapper (live : HandlerId → Bool)
    (β : HandlerId → HKind) (E : String) (x : Nat) (n : EventId)
    (w : HandlerId) (E₀ : String) (H₀ : HandlerId) (s : EventPool)
    (hev : mget E s.events = some [(n, w)]) (hlw : live w = true)
    (hβ : β w = HKind.wrapper E₀ H₀) :
    emitLoop live β E x 1 [] s = (off E₀ w s, [(w, x), (H₀, x)]) := by
  unfold emitLoop
  rw [hev]
  dsimp only
  rw [firstUnvisited_eq_head]
  rw [show (([(n, w)] : List (EventId × HandlerId)).filter
      (fun q => !(([] : List EventId).contains q.1))) = [(n, w)] from by simp]
  dsimp only [List.head?]
  rw [show deref live w = some w from by simp [deref, hlw], hβ]
  rfl

end EmitLemmas

section OnWF

theorem rows_nodup_mset {K : Type} [DecidableEq K] {A : Type}
    [DecidableEq A] {l : List (K × List (A × HandlerId))} {k : K}
    {v : List (A × HandlerId)}
    (hrows : ∀ p ∈ l, (p.2.map Prod.fst).Nodup)
    (hv : (v.map Prod.fst).Nodup) :
    ∀ p ∈ mset k v l, (p.2.map Prod.fst).Nodup := by
  intro p hp
  rcases mem_mset_cases hp with hp | hp
  · rw [hp]
    exact hv
  · exact hrows p hp

theorem getD_row_nodup {K : Type} [DecidableEq K] {A : Type}
    [DecidableEq A] {l : List (K × List (A × HandlerId))} {k : K}
    (hrows : ∀ p ∈ l, (p.2.map Prod.fst).Nodup) :
    (((mget k l).getD []).map Prod.fst).Nodup := by
  rcases h : mget k l with _ | v
  · simp
  · exact hrows (k, v) (mget_mem h)

theorem on_WF (E : String) (H : HandlerId) (s : EventPool)
    (hWF : WFPool s) : WFPool (on_ E H s).2 := by
  obtain ⟨hoE, hoH, hiE, hiH⟩ := hWF
  have hoE0 : ((if mhas E s.events then s.events
      else mset E [] s.events).map Prod.fst).Nodup := by
    by_cases hh : mhas E s.events = true
    · rw [if_pos hh]
      exact hoE
    · rw [if_neg hh]
      exact nodup_keys_mset _ _ _ hoE
  have hoH0 : ((if mhas E s.handlerMap then s.handlerMap
      else mset E [] s.handlerMap).map Prod.fst).Nodup := by
    by_cases hh : mhas E s.handlerMap = true
    · rw [if_pos hh]
      exact hoH
    · rw [if_neg hh]
      exact nodup_keys_mset _ _ _ hoH
  have hiE0 : ∀ p ∈ (if mhas E s.events then s.events
      else mset E [] s.events), (p.2.map Prod.fst).Nodup := by
    by_cases hh : mhas E s.events = true
    · rw [if_pos hh]
      exact hiE
    · rw [if_neg hh]
      exact rows_nodup_mset hiE (by simp)
  have hiH0 : ∀ p ∈ (if mhas E s.handlerMap then s.handlerMap
      else mset E [] s.handlerMap), (p.2.map Prod.fst).Nodup := by
    by_cases hh : mhas E s.handlerMap = true
    · rw [if_pos hh]
      exact hiH
    · rw [if_neg hh]
      exact rows_nodup_mset hiH (by simp)
  exact ⟨nodup_keys_mset _ _ _ hoE0, nodup_keys_mset _ _ _ hoH0,
    rows_nodup_mset hiE0 (nodup_keys_mset _ _ _ (getD_row_nodup hiE0)),
    rows_nodup_mset hiH0 (nodup_keys_mset _ _ _ (getD_row_nodup hiH0))⟩

theorem foldl_clean_emOf_sublist (live : HandlerId → Bool)
    (es : List String) (e : String) (s : EventPool) :
    (emOf e (es.foldl (fun acc e' => cleanDeadHandlers live e' acc)
      s)).Sublist (emOf e s) := by
  induction es generalizing s with
  | nil => exact List.Sublist.refl _
  | cons e₀ es ih =>
      simp only [List.foldl_cons]
      exact (ih (cleanDeadHandlers live e₀ s)).trans
        (emOf_clean_sublist live e₀ e s)

theorem mem_value_eq_of_nodup {K V : Type} [DecidableEq K] [DecidableEq V]
    {l : List (K × V)} {k : K} {v₁ v₂ : V} (hnd : (l.map Prod.fst).Nodup) (h1 : (k, v₁) ∈ l)
    (h2 : (k, v₂) ∈ l) : v₁ = v₂ := by
  have e1 := mget_eq_some_of_mem hnd h1
  have e2 := mget_eq_some_of_mem hnd h2
  rw [e1] at e2
  injection e2

theorem mem_keys_of_mget {K V : Type} [DecidableEq K] [DecidableEq V]
    {l : List (K × V)} {k : K} {v : V} (h : mget k l = some v) : k ∈ l.map Prod.fst :=
  List.mem_map.mpr ⟨(k, v), mget_mem h, rfl⟩

end OnWF

section TableInvLemmas

variable (live : HandlerId → Bool)

theorem mget_none_of_sublist {K V : Type} [DecidableEq K] [DecidableEq V]
    {l l' : List (K × V)} (hsub : l'.Sublist l) {k : K}
    (h : mget k l = none) : mget k l' = none := by
  rw [mget_eq_none_iff] at h ⊢
  exact fun hmem => h ((hsub.map Prod.fst).subset hmem)

theorem length_le_one_of_nodup_const {α : Type} {l : List α} {x : α}
    (hnd : l.Nodup) (hall : ∀ a ∈ l, a = x) : l.length ≤ 1 := by
  cases l with
  | nil => simp
  | cons a t =>
      cases t with
      | nil => simp
      | cons b u =>
          exfalso
          have ha : a = x := hall a (List.mem_cons_self _ _)
          have hb : b = x := hall b (List.mem_cons_of_mem _
            (List.mem_cons_self _ _))
          simp only [List.nodup_cons] at hnd
          exact hnd.1 (by rw [ha, hb]; exact List.mem_cons_self _ _)

theorem nodup_of_keys_nodup {K V : Type} {l : List (K × V)}
    (hnd : (l.map Prod.fst).Nodup) : l.Nodup :=
  List.Nodup.of_map Prod.fst hnd

theorem tableInv_mset {em : List (EventId × HandlerId)}
    {hm : List (HandlerId × EventId)} {n : EventId} {H : HandlerId}
    (hT : TableInv live em hm) (hfreshem : mget n em = none)
    (hfreshhm : ∀ q ∈ hm, q.2 ≠ n) (hrevH : mget H hm = none) :
    TableInv live (mset n H em) (mset H n hm) := by
  obtain ⟨hs, hc⟩ := hT
  constructor
  · intro h id hget
    by_cases hH : h = H
    · subst hH
      rw [mget_mset_self] at hget
      injection hget with hget
      rw [← hget]
      exact Or.inl (mget_mset_self _ _ _)
    · rw [mget_mset_ne _ _ _ _ hH] at hget
      rcases hs h id hget with hold | ⟨hdead, hnone⟩
      · have hne : id ≠ n := by
          intro hc'
          rw [hc'] at hold
          rw [hold] at hfreshem
          exact Option.noConfusion hfreshem
        rw [mget_mset_ne _ _ _ _ hne]
        exact Or.inl hold
      · have hne : id ≠ n := hfreshhm (h, id) (mget_mem hget)
        rw [mget_mset_ne _ _ _ _ hne]
        exact Or.inr ⟨hdead, hnone⟩
  · intro id h hget hlive
    by_cases hn : id = n
    · subst hn
      rw [mget_mset_self] at hget
      injection hget with hget
      rw [← hget]
      exact mget_mset_self _ _ _
    · rw [mget_mset_ne _ _ _ _ hn] at hget
      have hH : h ≠ H := by
        intro hc'
        have hrev' := hc id h hget hlive
        rw [hc'] at hrev'
        rw [hrev'] at hrevH
        exact Option.noConfusion hrevH
      rw [mget_mset_ne _ _ _ _ hH]
      exact hc id h hget hlive

theorem tableInv_mdel_rev {em : List (EventId × HandlerId)}
    {hm : List (HandlerId × EventId)} {H : HandlerId} {id : EventId}
    (hndem : (em.map Prod.fst).Nodup) (hndhm : (hm.map Prod.fst).Nodup)
    (hT : TableInv live em hm) (hrev : mget H hm = some id) :
    TableInv live (mdel id em) (mdel H hm) := by
  obtain ⟨hs, hc⟩ := hT
  constructor
  · intro h id' hget
    have hH : h ≠ H := by
      intro hc'
      rw [hc'] at hget
      rw [mget_mdel_self hndhm] at hget
      exact Option.noConfusion hget
    rw [mget_mdel_ne _ _ _ hH] at hget
    rcases hs h id' hget with hold | ⟨hdead, hnone⟩
    · have hne : id' ≠ id := by
        intro hc'
        subst hc'
        rcases hs H id' hrev with holdH | ⟨_, hnoneH⟩
        · rw [hold] at holdH
          exact hH (Option.some_inj.mp holdH)
        · rw [hold] at hnoneH
          exact Option.noConfusion hnoneH
      rw [mget_mdel_ne _ _ _ hne]
      exact Or.inl hold
    · exact Or.inr ⟨hdead, mget_none_of_sublist (mdel_sublist id em) hnone⟩
  · intro id' h hget hlive
    have hne : id' ≠ id := by
      intro hc'
      rw [hc'] at hget
      rw [mget_mdel_self hndem] at hget
      exact Option.noConfusion hget
    rw [mget_mdel_ne _ _ _ hne] at hget
    have hrev' := hc id' h hget hlive
    have hH : h ≠ H := by
      intro hc'
      rw [hc'] at hrev'
      rw [hrev'] at hrev
      exact hne (Option.some_inj.mp hrev)
    rw [mget_mdel_ne _ _ _ hH]
    exact hrev'

theorem tableInv_mdel_dead {em : List (EventId × HandlerId)}
    {hm : List (HandlerId × EventId)} {h₀ : HandlerId} {id : EventId}
    (hndem : (em.map Prod.fst).Nodup) (hT : TableInv live em hm)
    (hsub : mget id em = some h₀) (hdead : live h₀ = false) :
    TableInv live (mdel id em) hm := by
  obtain ⟨hs, hc⟩ := hT
  constructor
  · intro h id' hget
    rcases hs h id' hget with hold | ⟨hd, hnone⟩
    · by_cases hne : id' = id
      · rw [hne] at hold
        rw [hold] at hsub
        have hh : h = h₀ := Option.some_inj.mp hsub
        rw [hne, hh]
        exact Or.inr ⟨hh ▸ hdead, mget_mdel_self hndem⟩
      · rw [mget_mdel_ne _ _ _ hne]
        exact Or.inl hold
    · exact Or.inr ⟨hd, mget_none_of_sublist (mdel_sublist id em) hnone⟩
  · intro id' h hget hlive
    have hne : id' ≠ id := by
      intro hc'
      rw [hc'] at hget
      rw [mget_mdel_self hndem] at hget
      exact Option.noConfusion hget
    rw [mget_mdel_ne _ _ _ hne] at hget
    exact hc id' h hget hlive

theorem mem_deadIds_iff {em : List (EventId × HandlerId)} {id : EventId}
    (hnd : (em.map Prod.fst).Nodup) :
    id ∈ (em.filter (fun p => !(live p.2))).map Prod.fst ↔
      ∃ h, mget id em = some h ∧ live h = false := by
  constructor
  · intro hmem
    obtain ⟨q, hq, hq1⟩ := List.mem_map.mp hmem
    obtain ⟨hqm, hqd⟩ := List.mem_filter.mp hq
    obtain ⟨qid, qh⟩ := q
    simp only at hq1
    subst hq1
    exact ⟨qh, mget_eq_some_of_mem hnd hqm, by simpa using hqd⟩
  · rintro ⟨h, hget, hdead⟩
    exact List.mem_map.mpr ⟨(id, h),
      List.mem_filter.mpr ⟨mget_mem hget, by simp [hdead]⟩, rfl⟩

theorem tableInv_clean {em : List (EventId × HandlerId)}
    {hm : List (HandlerId × EventId)}
    (hndem : (em.map Prod.fst).Nodup) (hndhm : (hm.map Prod.fst).Nodup)
    (hT : TableInv live em hm) :
    TableInv live (em.filter (fun p => live p.2))
      (((em.filter (fun p => !(live p.2))).map Prod.fst).foldl
        (fun acc d => delFirstVal d acc) hm) := by
  obtain ⟨hs, hc⟩ := hT
  have hcount : ∀ d ∈ (em.filter (fun p => !(live p.2))).map Prod.fst,
      hm.countP (fun p => decide (p.2 = d)) ≤ 1 := by
    intro d hd
    obtain ⟨hd0, hget0, hdead0⟩ := (mem_deadIds_iff live hndem).mp hd
    rw [List.countP_eq_length_filter]
    apply length_le_one_of_nodup_const (x := (hd0, d))
      ((nodup_of_keys_nodup hndhm).filter _)
    intro a ha
    obtain ⟨ham, hav⟩ := List.mem_filter.mp ha
    have hav' : a.2 = d := by simpa using hav
    have hgeta : mget a.1 hm = some a.2 := mget_eq_some_of_mem hndhm
      (by obtain ⟨a1, a2⟩ := a; exact ham)
    rcases hs a.1 a.2 hgeta with hold | ⟨_, hnone⟩
    · rw [hav'] at hold
      rw [hold] at hget0
      have ha1 : a.1 = hd0 := Option.some_inj.mp hget0
      obtain ⟨a1, a2⟩ := a
      simp only at hav' ha1
      rw [hav', ha1]
    · rw [hav'] at hnone
      rw [hnone] at hget0
      exact absurd hget0 (by simp)
  rw [foldl_delFirstVal_filter
    ((em.filter (fun p => !(live p.2))).map Prod.fst) hm hcount]
  constructor
  · intro h id hget
    rw [mget_filter _ hndhm] at hget
    rcases hgo : mget h hm with _ | id₀
    · rw [hgo] at hget
      exact Option.noConfusion hget
    · rw [hgo, Option.filter_some] at hget
      by_cases hin : id₀ ∈ (em.filter (fun p => !(live p.2))).map Prod.fst
      · rw [if_neg (by simp [hin])] at hget
        exact Option.noConfusion hget
      · rw [if_pos (by simp [hin])] at hget
        have hid : id₀ = id := Option.some_inj.mp hget
        rw [← hid]
        rcases hs h id₀ hgo with hold | ⟨hdead, hnone⟩
        · have hliveh : live h = true := by
            by_contra hcps
            exact hin ((mem_deadIds_iff live hndem).mpr
              ⟨h, hold, by revert hcps; cases live h <;> simp⟩)
          rw [mget_filter _ hndem, hold, Option.filter_some, if_pos hliveh]
          exact Or.inl rfl
        · refine Or.inr ⟨hdead, ?_⟩
          exact mget_none_of_sublist (em.filter_sublist) hnone
  · intro id h hget hlive
    rw [mget_filter _ hndem] at hget
    rcases hgo : mget id em with _ | h₀
    · rw [hgo] at hget
      exact Option.noConfusion hget
    · rw [hgo, Option.filter_some] at hget
      by_cases hl0 : live h₀ = true
      · rw [if_pos hl0] at hget
        have hid : h₀ = h := Option.some_inj.mp hget
        rw [← hid] at hlive ⊢
        have hrev := hc id h₀ hgo hlive
        rw [mget_filter _ hndhm, hrev, Option.filter_some]
        have hnotdead : id ∉ (em.filter
            (fun p => !(live p.2))).map Prod.fst := by
          intro hin
          obtain ⟨h', hget', hdead'⟩ := (mem_deadIds_iff live hndem).mp hin
          rw [hgo] at hget'
          have hh : h₀ = h' := Option.some_inj.mp hget'
          rw [← hh] at hdead'
          rw [hlive] at hdead'
          exact Bool.noConfusion hdead'
        rw [if_pos (by simp [hnotdead])]
      · rw [if_neg hl0] at hget
        exact Option.noConfusion hget

theorem tableInv_shrink {live live2 : HandlerId → Bool}
    {em : List (EventId × HandlerId)} {hm : List (HandlerId × EventId)}
    (hmono : ∀ h, live2 h = true → live h = true)
    (hT : TableInv live em hm) : TableInv live2 em hm := by
  obtain ⟨hs, hc⟩ := hT
  constructor
  · intro h id hget
    rcases hs h id hget with hold | ⟨hdead, hnone⟩
    · exact Or.inl hold
    · refine Or.inr ⟨?_, hnone⟩
      cases h2 : live2 h with
      | false => rfl
      | true => rw [hmono h h2] at hdead; exact Bool.noConfusion hdead
  · intro id h hget hlive
    exact hc id h hget (hmono h hlive)

end TableInvLemmas

section InvLemmas

variable (live : HandlerId → Bool)

theorem emBound {s : EventPool} (hB : IdsBound s) (E : String) :
    ∀ q ∈ emOf E s, q.1 < s.nextId := by
  intro q hq
  rw [emOf] at hq
  rcases h : mget E s.events with _ | v
  · rw [h] at hq
    simp at hq
  · rw [h] at hq
    simp only [Option.getD_some] at hq
    exact hB.1 (E, v) (mget_mem h) q hq

theorem hmBound {s : EventPool} (hB : IdsBound s) (E : String) :
    ∀ q ∈ hmOf E s, q.2 < s.nextId := by
  intro q hq
  rw [hmOf] at hq
  rcases h : mget E s.handlerMap with _ | v
  · rw [h] at hq
    simp at hq
  · rw [h] at hq
    simp only [Option.getD_some] at hq
    exact hB.2 (E, v) (mget_mem h) q hq

theorem emNodup {s : EventPool} (hWF : WFPool s) (E : String) :
    ((emOf E s).map Prod.fst).Nodup :=
  getD_row_nodup hWF.2.2.1

theorem hmNodup {s : EventPool} (hWF : WFPool s) (E : String) :
    ((hmOf E s).map Prod.fst).Nodup :=
  getD_row_nodup hWF.2.2.2

theorem inv_empty : Inv live emptyPool := by
  refine ⟨⟨by simp [emptyPool], by simp [emptyPool], ?_, ?_⟩,
    ⟨?_, ?_⟩, ?_⟩
  · intro p hp
    simp [emptyPool] at hp
  · intro p hp
    simp [emptyPool] at hp
  · intro p hp
    simp [emptyPool] at hp
  · intro p hp
    simp [emptyPool] at hp
  · intro e
    constructor
    · intro h id hget
      simp [hmOf, emptyPool, mget] at hget
    · intro id h hget
      simp [emOf, emptyPool, mget] at hget

theorem inv_shrink {live live2 : HandlerId → Bool} {s : EventPool}
    (hmono : ∀ h, live2 h = true → live h = true) (hInv : Inv live s) :
    Inv live2 s :=
  ⟨hInv.1, hInv.2.1, fun e => tableInv_shrink hmono (hInv.2.2 e)⟩

theorem bound_of_row_sublists {s s' : EventPool} (hB : IdsBound s)
    (hnext : s'.nextId = s.nextId)
    (hev : ∀ p ∈ s'.events, ∃ p₀ ∈ s.events, p.2.Sublist p₀.2)
    (hhm : ∀ p ∈ s'.handlerMap, ∃ p₀ ∈ s.handlerMap, p.2.Sublist p₀.2) :
    IdsBound s' := by
  constructor
  · intro p hp q hq
    obtain ⟨p₀, hp₀, hsub⟩ := hev p hp
    rw [hnext]
    exact hB.1 p₀ hp₀ q (hsub.subset hq)
  · intro p hp q hq
    obtain ⟨p₀, hp₀, hsub⟩ := hhm p hp
    rw [hnext]
    exact hB.2 p₀ hp₀ q (hsub.subset hq)

theorem inv_clean (E : String) {s : EventPool} (hInv : Inv live s) :
    Inv live (cleanDeadHandlers live E s) := by
  obtain ⟨hWF, hB, hT⟩ := hInv
  rcases hev : mget E s.events with _ | em
  · rw [clean_of_events_none live E s hev]
    exact ⟨hWF, hB, hT⟩
  · rcases hhm : mget E s.handlerMap with _ | hm
    · rw [clean_of_hm_none live E s hhm]
      exact ⟨hWF, hB, hT⟩
    · have hemnd : (em.map Prod.fst).Nodup := hWF.2.2.1 (E, em) (mget_mem hev)
      have hhmnd : (hm.map Prod.fst).Nodup :=
        hWF.2.2.2 (E, hm) (mget_mem hhm)
      refine ⟨clean_WF live hWF, ?_, ?_⟩
      · refine bound_of_row_sublists hB (clean_nextId live E s) ?_ ?_
        · intro p hp
          rw [clean_eq live E s hev hhm] at hp
          rcases mem_mset_cases hp with hp | hp
          · refine ⟨(E, em), mget_mem hev, ?_⟩
            rw [hp]
            exact foldl_mdel_sublist _ em
          · exact ⟨p, hp, List.Sublist.refl p.2⟩
        · intro p hp
          rw [clean_eq live E s hev hhm] at hp
          rcases mem_mset_cases hp with hp | hp
          · refine ⟨(E, hm), mget_mem hhm, ?_⟩
            rw [hp]
            exact foldl_delFirstVal_sublist _ hm
          · exact ⟨p, hp, List.Sublist.refl p.2⟩
      · intro e
        by_cases he : e = E
        · subst he
          have h1 : emOf e (cleanDeadHandlers live e s) =
              em.filter (fun p => live p.2) := by
            rw [emOf, mget_events_clean_self live e s hev hhm hemnd]
            rfl
          have h2 : hmOf e (cleanDeadHandlers live e s) =
              ((em.filter (fun p => !(live p.2))).map Prod.fst).foldl
                (fun acc d => delFirstVal d acc) hm := by
            rw [hmOf, mget_hm_clean_self live e s hev hhm]
            rfl
          rw [h1, h2]
          have hTe := hT e
          rw [show emOf e s = em from by rw [emOf, hev]; rfl,
            show hmOf e s = hm from by rw [hmOf, hhm]; rfl] at hTe
          exact tableInv_clean live hemnd hhmnd hTe
        · have h1 : emOf e (cleanDeadHandlers live E s) = emOf e s := by
            rw [emOf, mget_events_clean_ne live E e s he, emOf]
          have h2 : hmOf e (cleanDeadHandlers live E s) = hmOf e s := by
            rw [hmOf, mget_hm_clean_ne live E e s he, hmOf]
          rw [h1, h2]
          exact hT e

theorem inv_foldl_clean (es : List String) {s : EventPool}
    (hInv : Inv live s) :
    Inv live (es.foldl (fun acc e => cleanDeadHandlers live e acc) s) := by
  induction es generalizing s with
  | nil => exact hInv
  | cons e es ih =>
      simp only [List.foldl_cons]
      exact ih (inv_clean live e hInv)

theorem inv_sweep {s : EventPool} (hInv : Inv live s) :
    Inv live (sweepDeadHandlers live s) :=
  inv_foldl_clean live _ hInv

theorem mget_none_of_bound {V : Type} [DecidableEq V] {n : Nat}
    {l : List (Nat × V)} (h : ∀ q ∈ l, q.1 < n) : mget n l = none := by
  rcases ho : mget n l with _ | v
  · rfl
  · have := h (n, v) (mget_mem ho)
    omega

theorem WF_set_both {s : EventPool} {e₀ e₁ : String}
    {v : List (EventId × HandlerId)} {w : List (HandlerId × EventId)}
    (hWF : WFPool s) (hv : (v.map Prod.fst).Nodup)
    (hw : (w.map Prod.fst).Nodup) :
    WFPool { s with events := mset e₀ v s.events,
                    handlerMap := mset e₁ w s.handlerMap } := by
  obtain ⟨hoE, hoH, hiE, hiH⟩ := hWF
  exact ⟨nodup_keys_mset _ _ _ hoE, nodup_keys_mset _ _ _ hoH,
    rows_nodup_mset hiE hv, rows_nodup_mset hiH hw⟩

theorem WF_set_events_only {s : EventPool} {e₀ : String}
    {v : List (EventId × HandlerId)} (hWF : WFPool s)
    (hv : (v.map Prod.fst).Nodup) :
    WFPool { s with events := mset e₀ v s.events } := by
  obtain ⟨hoE, hoH, hiE, hiH⟩ := hWF
  exact ⟨nodup_keys_mset _ _ _ hoE, hoH, rows_nodup_mset hiE hv, hiH⟩

theorem bound_set_both {s : EventPool} {e₀ e₁ : String}
    {v : List (EventId × HandlerId)} {w : List (HandlerId × EventId)}
    (hB : IdsBound s) (hvsub : ∃ p₀ ∈ s.events, v.Sublist p₀.2)
    (hwsub : ∃ p₀ ∈ s.handlerMap, w.Sublist p₀.2) :
    IdsBound { s with events := mset e₀ v s.events,
                      handlerMap := mset e₁ w s.handlerMap } := by
  refine bound_of_row_sublists hB rfl ?_ ?_
  · intro p hp
    rcases mem_mset_cases hp with hp | hp
    · obtain ⟨p₀, hp₀, hsub⟩ := hvsub
      refine ⟨p₀, hp₀, ?_⟩
      rw [hp]
      exact hsub
    · exact ⟨p, hp, List.Sublist.refl p.2⟩
  · intro p hp
    rcases mem_mset_cases hp with hp | hp
    · obtain ⟨p₀, hp₀, hsub⟩ := hwsub
      refine ⟨p₀, hp₀, ?_⟩
      rw [hp]
      exact hsub
    · exact ⟨p, hp, List.Sublist.refl p.2⟩

theorem bound_set_events_only {s : EventPool} {e₀ : String}
    {v : List (EventId × HandlerId)} (hB : IdsBound s)
    (hvsub : ∃ p₀ ∈ s.events, v.Sublist p₀.2) :
    IdsBound { s with events := mset e₀ v s.events } := by
  refine bound_of_row_sublists hB rfl ?_ ?_
  · intro p hp
    rcases mem_mset_cases hp with hp | hp
    · obtain ⟨p₀, hp₀, hsub⟩ := hvsub
      refine ⟨p₀, hp₀, ?_⟩
      rw [hp]
      exact hsub
    · exact ⟨p, hp, List.Sublist.refl p.2⟩
  · intro p hp
    exact ⟨p, hp, List.Sublist.refl p.2⟩

theorem mem_events_on_cases {p : String × List (EventId × HandlerId)}
    {E : String} {H : HandlerId} {s : EventPool}
    (hp : p ∈ (on_ E H s).2.events) :
    p = (E, mset s.nextId H (emOf E s)) ∨ p ∈ s.events ∨ p = (E, []) := by
  unfold on_ at hp
  simp only at hp
  rcases mem_mset_cases hp with hp | hp
  · left
    by_cases hh : mhas E s.events = true
    · rw [if_pos hh] at hp
      rw [hp]
      simp [emOf]
    · rw [if_neg hh] at hp
      have hn : mget E s.events = none := by
        rcases ho : mget E s.events with _ | v
        · rfl
        · exact absurd (by simp [mhas, ho]) hh
      rw [hp, mget_mset_self]
      simp [emOf, hn]
  · by_cases hh : mhas E s.events = true
    · rw [if_pos hh] at hp
      exact Or.inr (Or.inl hp)
    · rw [if_neg hh] at hp
      rcases mem_mset_cases hp with hp | hp
      · exact Or.inr (Or.inr hp)
      · exact Or.inr (Or.inl hp)

theorem mem_hm_on_cases {p : String × List (HandlerId × EventId)}
    {E : String} {H : HandlerId} {s : EventPool}
    (hp : p ∈ (on_ E H s).2.handlerMap) :
    p = (E, mset H s.nextId (hmOf E s)) ∨ p ∈ s.handlerMap ∨
      p = (E, []) := by
  unfold on_ at hp
  simp only at hp
  rcases mem_mset_cases hp with hp | hp
  · left
    by_cases hh : mhas E s.handlerMap = true
    · rw [if_pos hh] at hp
      rw [hp]
      simp [hmOf]
    · rw [if_neg hh] at hp
      have hn : mget E s.handlerMap = none := by
        rcases ho : mget E s.handlerMap with _ | v
        · rfl
        · exact absurd (by simp [mhas, ho]) hh
      rw [hp, mget_mset_self]
      simp [hmOf, hn]
  · by_cases hh : mhas E s.handlerMap = true
    · rw [if_pos hh] at hp
      exact Or.inr (Or.inl hp)
    · rw [if_neg hh] at hp
      rcases mem_mset_cases hp with hp | hp
      · exact Or.inr (Or.inr hp)
      · exact Or.inr (Or.inl hp)

theorem inv_on (live : HandlerId → Bool) (E : String) (H : HandlerId)
    {s : EventPool} (hInv : Inv live s)
    (hok : mget H (hmOf E s) = none) : Inv live (on_ E H s).2 := by
  obtain ⟨hWF, hB, hT⟩ := hInv
  refine ⟨on_WF E H s hWF, ⟨?_, ?_⟩, ?_⟩
  · intro p hp q hq
    rw [on_nextId]
    rcases mem_events_on_cases hp with hp | hp | hp
    · rw [hp] at hq
      rcases mem_mset_cases hq with hq | hq
      · rw [hq]
        exact Nat.lt_succ_self s.nextId
      · exact Nat.lt_succ_of_lt (emBound hB E q hq)
    · exact Nat.lt_succ_of_lt (hB.1 p hp q hq)
    · rw [hp] at hq
      simp at hq
  · intro p hp q hq
    rw [on_nextId]
    rcases mem_hm_on_cases hp with hp | hp | hp
    · rw [hp] at hq
      rcases mem_mset_cases hq with hq | hq
      · rw [hq]
        exact Nat.lt_succ_self s.nextId
      · exact Nat.lt_succ_of_lt (hmBound hB E q hq)
    · exact Nat.lt_succ_of_lt (hB.2 p hp q hq)
    · rw [hp] at hq
      simp at hq
  · intro e
    by_cases he : e = E
    · subst he
      have h1 : emOf e (on_ e H s).2 = mset s.nextId H (emOf e s) := by
        rw [emOf, mget_events_on_self]
        rfl
      have h2 : hmOf e (on_ e H s).2 = mset H s.nextId (hmOf e s) := by
        rw [hmOf, mget_hm_on_self]
        rfl
      rw [h1, h2]
      refine tableInv_mset live (hT e) ?_ ?_ hok
      · exact mget_none_of_bound (emBound hB e)
      · intro q hq
        exact Nat.ne_of_lt (hmBound hB e q hq)
    · have h1 : emOf e (on_ E H s).2 = emOf e s := by
        rw [emOf, mget_events_on_ne E e H s he, emOf]
      have h2 : hmOf e (on_ E H s).2 = hmOf e s := by
        rw [hmOf, mget_hm_on_ne E e H s he, hmOf]
      rw [h1, h2]
      exact hT e

theorem inv_off (live : HandlerId → Bool) (E : String) (H : HandlerId)
    {s : EventPool} (hInv : Inv live s) : Inv live (off E H s) := by
  obtain ⟨hWF, hB, hT⟩ := hInv
  rcases off_shape E H s with hs | ⟨id, hrev, hev, hhm, hs⟩
  · rw [hs]
    exact ⟨hWF, hB, hT⟩
  · rw [hs]
    have hevrow : ∃ em₀, mget E s.events = some em₀ := by
      rcases ho : mget E s.events with _ | v
      · rw [mhas, ho] at hev
        simp at hev
      · exact ⟨v, rfl⟩
    have hhmrow : ∃ hm₀, mget E s.handlerMap = some hm₀ := by
      rcases ho : mget E s.handlerMap with _ | v
      · rw [mhas, ho] at hhm
        simp at hhm
      · exact ⟨v, rfl⟩
    obtain ⟨em₀, hem₀⟩ := hevrow
    obtain ⟨hm₀, hhm₀⟩ := hhmrow
    have hemOf : emOf E s = em₀ := by rw [emOf, hem₀]; rfl
    have hhmOf : hmOf E s = hm₀ := by rw [hmOf, hhm₀]; rfl
    refine ⟨WF_set_both hWF
      (nodup_keys_sublist (mdel_sublist _ _) (emNodup hWF E))
      (nodup_keys_sublist (mdel_sublist _ _) (hmNodup hWF E)),
      bound_set_both hB
        ⟨(E, em₀), mget_mem hem₀, by rw [hemOf]; exact mdel_sublist _ _⟩
        ⟨(E, hm₀), mget_mem hhm₀, by rw [hhmOf]; exact mdel_sublist _ _⟩,
      ?_⟩
    intro e
    by_cases he : e = E
    · subst he
      have h1 : emOf e { s with
          events := mset e (mdel id (emOf e s)) s.events,
          handlerMap := mset e (mdel H (hmOf e s)) s.handlerMap } =
          mdel id (emOf e s) := by
        rw [emOf]
        show (mget e (mset e _ s.events)).getD [] = _
        rw [mget_mset_self]
        rfl
      have h2 : hmOf e { s with
          events := mset e (mdel id (emOf e s)) s.events,
          handlerMap := mset e (mdel H (hmOf e s)) s.handlerMap } =
          mdel H (hmOf e s) := by
        rw [hmOf]
        show (mget e (mset e _ s.handlerMap)).getD [] = _
        rw [mget_mset_self]
        rfl
      rw [h1, h2]
      exact tableInv_mdel_rev live (emNodup hWF e) (hmNodup hWF e)
        (hT e) hrev
    · have h1 : emOf e { s with
          events := mset E (mdel id (emOf E s)) s.events,
          handlerMap := mset E (mdel H (hmOf E s)) s.handlerMap } =
          emOf e s := by
        rw [emOf]
        show (mget e (mset E _ s.events)).getD [] = _
        rw [mget_mset_ne _ _ _ _ he]
        rfl
      have h2 : hmOf e { s with
          events := mset E (mdel id (emOf E s)) s.events,
          handlerMap := mset E (mdel H (hmOf E s)) s.handlerMap } =
          hmOf e s := by
        rw [hmOf]
        show (mget e (mset E _ s.handlerMap)).getD [] = _
        rw [mget_mset_ne _ _ _ _ he]
        rfl
      rw [h1, h2]
      exact hT e

theorem inv_offById (live : HandlerId → Bool) (id : EventId)
    {s : EventPool} (hInv : Inv live s) : Inv live (offById live id s) := by
  obtain ⟨hWF, hB, hT⟩ := hInv
  rcases ho : findOwner id s.events with _ | q
  · rw [offById_eq_of_none live id s ho]
    exact ⟨hWF, hB, hT⟩
  · obtain ⟨e₀, em⟩ := q
    have hget : mget e₀ s.events = some em := findOwner_first hWF.1 ho
    have hemOf : emOf e₀ s = em := by rw [emOf, hget]; rfl
    have hhas := (findOwner_mem ho).2
    have hndem : (em.map Prod.fst).Nodup := hWF.2.2.1 (e₀, em) (mget_mem hget)
    rcases hid : mget id em with _ | h₀
    · rw [mhas, hid] at hhas
      simp at hhas
    · by_cases hl : live h₀ = true
      · have hdopt : (mget id em).bind (deref live) = some h₀ := by
          rw [hid]
          simp [deref, hl]
        rcases hhm0 : mget e₀ s.handlerMap with _ | hm₀
        · have hstate : offById live id s =
              { s with events := mset e₀ (mdel id em) s.events } := by
            rw [offById_eq_of_some live id s ho, hdopt, hhm0]
          rw [hstate]
          refine ⟨WF_set_events_only hWF
            (nodup_keys_sublist (mdel_sublist _ _) hndem),
            bound_set_events_only hB
              ⟨(e₀, em), mget_mem hget, mdel_sublist _ _⟩, ?_⟩
          intro e
          by_cases he : e = e₀
          · subst he
            have h1 : emOf e { s with
                events := mset e (mdel id em) s.events } = mdel id em := by
              rw [emOf]
              show (mget e (mset e _ s.events)).getD [] = _
              rw [mget_mset_self]
              rfl
            have h2 : hmOf e { s with
                events := mset e (mdel id em) s.events } = hmOf e s := by
              rw [hmOf]
              rfl
            rw [h1, h2]
            constructor
            · intro h id' hget'
              rw [hmOf, hhm0] at hget'
              simp [mget] at hget'
            · intro id' h hget' hlive'
              exfalso
              have hmem : (id', h) ∈ em :=
                (mdel_sublist id em).subset (mget_mem hget')
              have := (hT e).2 id' h
                (by rw [hemOf]; exact mget_eq_some_of_mem hndem hmem) hlive'
              rw [hmOf, hhm0] at this
              simp [mget] at this
          · have h1 : emOf e { s with
                events := mset e₀ (mdel id em) s.events } = emOf e s := by
              rw [emOf]
              show (mget e (mset e₀ _ s.events)).getD [] = _
              rw [mget_mset_ne _ _ _ _ he]
              rfl
            have h2 : hmOf e { s with
                events := mset e₀ (mdel id em) s.events } = hmOf e s := by
              rw [hmOf]
              rfl
            rw [h1, h2]
            exact hT e
        · have hstate : offById live id s =
              { s with events := mset e₀ (mdel id em) s.events,
                       handlerMap := mset e₀ (mdel h₀ hm₀) s.handlerMap } := by
            rw [offById_eq_of_some live id s ho, hdopt, hhm0]
          rw [hstate]
          have hhmOf : hmOf e₀ s = hm₀ := by rw [hmOf, hhm0]; rfl
          have hndhm : (hm₀.map Prod.fst).Nodup :=
            hWF.2.2.2 (e₀, hm₀) (mget_mem hhm0)
          have hrev : mget h₀ (hmOf e₀ s) = some id :=
            (hT e₀).2 id h₀ (by rw [hemOf]; exact hid) hl
          refine ⟨WF_set_both hWF
            (nodup_keys_sublist (mdel_sublist _ _) hndem)
            (nodup_keys_sublist (mdel_sublist _ _) hndhm),
            bound_set_both hB
              ⟨(e₀, em), mget_mem hget, mdel_sublist _ _⟩
              ⟨(e₀, hm₀), mget_mem hhm0, mdel_sublist _ _⟩, ?_⟩
          intro e
          by_cases he : e = e₀
          · subst he
            have h1 : emOf e { s with
                events := mset e (mdel id em) s.events,
                handlerMap := mset e (mdel h₀ hm₀) s.handlerMap } =
                mdel id em := by
              rw [emOf]
              show (mget e (mset e _ s.events)).getD [] = _
              rw [mget_mset_self]
              rfl
            have h2 : hmOf e { s with
                events := mset e (mdel id em) s.events,
                handlerMap := mset e (mdel h₀ hm₀) s.handlerMap } =
                mdel h₀ hm₀ := by
              rw [hmOf]
              show (mget e (mset e _ s.handlerMap)).getD [] = _
              rw [mget_mset_self]
              rfl
            rw [h1, h2, ← hemOf, ← hhmOf]
            exact tableInv_mdel_rev live (emNodup hWF e) (hmNodup hWF e)
              (hT e) hrev
          · have h1 : emOf e { s with
                events := mset e₀ (mdel id em) s.events,
                handlerMap := mset e₀ (mdel h₀ hm₀) s.handlerMap } =
                emOf e s := by
              rw [emOf]
              show (mget e (mset e₀ _ s.events)).getD [] = _
              rw [mget_mset_ne _ _ _ _ he]
              rfl
            have h2 : hmOf e { s with
                events := mset e₀ (mdel id em) s.events,
                handlerMap := mset e₀ (mdel h₀ hm₀) s.handlerMap } =
                hmOf e s := by
              rw [hmOf]
              show (mget e (mset e₀ _ s.handlerMap)).getD [] = _
              rw [mget_mset_ne _ _ _ _ he]
              rfl
            rw [h1, h2]
            exact hT e
      · have hlf : live h₀ = false := by
          revert hl
          cases live h₀ <;> simp
        have hdopt : (mget id em).bind (deref live) = none := by
          rw [hid]
          simp [deref, hlf]
        have hstate : offById live id s =
            { s with events := mset e₀ (mdel id em) s.events } := by
          rw [offById_eq_of_some live id s ho, hdopt]
        rw [hstate]
        refine ⟨WF_set_events_only hWF
          (nodup_keys_sublist (mdel_sublist _ _) hndem),
          bound_set_events_only hB
            ⟨(e₀, em), mget_mem hget, mdel_sublist _ _⟩, ?_⟩
        intro e
        by_cases he : e = e₀
        · subst he
          have h1 : emOf e { s with
              events := mset e (mdel id em) s.events } = mdel id em := by
            rw [emOf]
            show (mget e (mset e _ s.events)).getD [] = _
            rw [mget_mset_self]
            rfl
          have h2 : hmOf e { s with
              events := mset e (mdel id em) s.events } = hmOf e s := by
            rw [hmOf]
            rfl
          rw [h1, h2, ← hemOf]
          exact tableInv_mdel_dead live (emNodup hWF e) (hT e)
            (by rw [hemOf]; exact hid) hlf
        · have h1 : emOf e { s with
              events := mset e₀ (mdel id em) s.events } = emOf e s := by
            rw [emOf]
            show (mget e (mset e₀ _ s.events)).getD [] = _
            rw [mget_mset_ne _ _ _ _ he]
            rfl
          have h2 : hmOf e { s with
              events := mset e₀ (mdel id em) s.events } = hmOf e s := by
            rw [hmOf]
            rfl
          rw [h1, h2]
          exact hT e

theorem inv_removeAllListeners (live : HandlerId → Bool) (E : String)
    {s : EventPool} (hInv : Inv live s) :
    Inv live (removeAllListeners E s) := by
  obtain ⟨⟨hoE, hoH, hiE, hiH⟩, hB, hT⟩ := hInv
  refine ⟨⟨nodup_keys_sublist (mdel_sublist _ _) hoE,
    nodup_keys_sublist (mdel_sublist _ _) hoH,
    fun p hp => hiE p ((mdel_sublist _ _).subset hp),
    fun p hp => hiH p ((mdel_sublist _ _).subset hp)⟩, ?_, ?_⟩
  · refine bound_of_row_sublists hB rfl ?_ ?_
    · exact fun p hp => ⟨p, (mdel_sublist _ _).subset hp,
        List.Sublist.refl p.2⟩
    · exact fun p hp => ⟨p, (mdel_sublist _ _).subset hp,
        List.Sublist.refl p.2⟩
  · intro e
    by_cases he : e = E
    · subst he
      have h1 : emOf e (removeAllListeners e s) = [] := by
        rw [emOf]
        show (mget e (mdel e s.events)).getD [] = _
        rw [mget_mdel_self hoE]
        rfl
      have h2 : hmOf e (removeAllListeners e s) = [] := by
        rw [hmOf]
        show (mget e (mdel e s.handlerMap)).getD [] = _
        rw [mget_mdel_self hoH]
        rfl
      rw [h1, h2]
      constructor
      · intro h id hget
        simp [mget] at hget
      · intro id h hget
        simp [mget] at hget
    · have h1 : emOf e (removeAllListeners E s) = emOf e s := by
        rw [emOf]
        show (mget e (mdel E s.events)).getD [] = _
        rw [mget_mdel_ne _ _ _ he]
        rfl
      have h2 : hmOf e (removeAllListeners E s) = hmOf e s := by
        rw [hmOf]
        show (mget e (mdel E s.handlerMap)).getD [] = _
        rw [mget_mdel_ne _ _ _ he]
        rfl
      rw [h1, h2]
      exact hT e

theorem inv_removeAll (live : HandlerId → Bool) {s : EventPool}
    (_hInv : Inv live s) : Inv live (removeAll s) := by
  refine ⟨⟨by simp [removeAll], by simp [removeAll], ?_, ?_⟩,
    ⟨?_, ?_⟩, ?_⟩
  · intro p hp
    simp [removeAll] at hp
  · intro p hp
    simp [removeAll] at hp
  · intro p hp
    simp [removeAll] at hp
  · intro p hp
    simp [removeAll] at hp
  · intro e
    constructor
    · intro h id hget
      simp [hmOf, removeAll, mget] at hget
    · intro id h hget
      simp [emOf, removeAll, mget] at hget

theorem inv_emitLoop (live : HandlerId → Bool) (β : HandlerId → HKind)
    (E : String) (x : Nat) :
    ∀ fuel visited {s : EventPool}, Inv live s →
      Inv live (emitLoop live β E x fuel visited s).1 := by
  intro fuel
  induction fuel with
  | zero =>
      intro visited s hInv
      exact hInv
  | succ fuel ih =>
      intro visited s hInv
      unfold emitLoop
      cases hev : mget E s.events with
      | none => exact hInv
      | some em =>
          dsimp only
          cases hfu : firstUnvisited visited em with
          | none => exact hInv
          | some q =>
              obtain ⟨id, h⟩ := q
              dsimp only
              cases hd : deref live h with
              | none => exact ih (id :: visited) hInv
              | some hh =>
                  dsimp only
                  cases hβ : β h with
                  | plain => exact ih (id :: visited) hInv
                  | wrapper we inner =>
                      exact ih (id :: visited) (inv_off live we h hInv)

theorem inv_emit (live : HandlerId → Bool) (β : HandlerId → HKind)
    (E : String) (x : Nat) {s : EventPool} (hInv : Inv live s) :
    Inv live (emit live β E x s).1 := by
  unfold emit
  dsimp only
  cases hev : mget E ((cleanDeadHandlers live E s).events) with
  | none => exact inv_clean live E hInv
  | some em =>
      dsimp only
      exact inv_emitLoop live β E x em.length [] (inv_clean live E hInv)

theorem inv_applyOp (live : HandlerId → Bool) (β : HandlerId → HKind)
    (op : Op) {s : EventPool} (hInv : Inv live s) (hok : okStep s op) :
    Inv live (applyOp live β s op) := by
  cases op
  next e h => exact inv_on live e h hInv hok
  next e w => exact inv_on live e w hInv hok
  next e h => exact inv_off live e h hInv
  next id => exact inv_offById live id hInv
  next e => exact inv_removeAllListeners live e hInv
  next => exact inv_removeAll live hInv
  next e x => exact inv_emit live β e x hInv
  next => exact inv_sweep live hInv

theorem inv_runSteps (β : HandlerId → HKind) :
    ∀ (steps : List Step) (prevLive : HandlerId → Bool) (s : EventPool),
      Inv prevLive s → StepsOk β prevLive s steps →
      Inv (lastLive prevLive steps) (runSteps β s steps) := by
  intro steps
  induction steps with
  | nil =>
      intro prev s hInv _
      exact hInv
  | cons st t ih =>
      intro prev s hInv hok
      obtain ⟨hmono, hstep, hrest⟩ := hok
      exact ih st.live _
        (inv_applyOp st.live β st.op (inv_shrink hmono hInv) hstep) hrest

end InvLemmas

section Claims

/-- C1: subscribing a handler to an event and immediately emitting on that
event invokes the handler exactly once, with the emitted argument.  The
hypotheses pin down the scenario: the handler is live and a plain callable,
and the event's existing subscriptions (if any) are plain handlers other
than H — in particular H is not already subscribed, the duplicate-subscribe
case treated by C5 — with well-formed, bounded identifiers as produced by
the operations. -/
theorem c1_subscribe_then_emit_invokes_once (live : HandlerId → Bool)
    (β : HandlerId → HKind) (E : String) (H : HandlerId) (x : Nat)
    (s : EventPool) (hlive : live H = true) (hβ : β H = HKind.plain)
    (hold : ∀ q ∈ emOf E s, q.2 ≠ H ∧ β q.2 = HKind.plain)
    (hnd : ((emOf E s).map Prod.fst).Nodup)
    (hbound : ∀ q ∈ emOf E s, q.1 < s.nextId) :
    (emit live β E x (on_ E H s).2).2.filter
      (fun r => decide (r.1 = H)) = [(H, x)] := by
  have hfresh : mget s.nextId (emOf E s) = none := by
    have hh := mhas_false_of_bound hbound
    rcases ho : mget s.nextId (emOf E s) with _ | v
    · rfl
    · rw [mhas, ho] at hh
      simp at hh
  have happ : mset s.nextId H (emOf E s) = emOf E s ++ [(s.nextId, H)] :=
    mset_append_of_not_mem H hfresh
  have hev' := mget_events_on_self E H s
  have hhm' := mget_hm_on_self E H s
  have hndnew : ((mset s.nextId H (emOf E s)).map Prod.fst).Nodup :=
    nodup_keys_mset _ _ _ hnd
  have hplainnew : ∀ q ∈ mset s.nextId H (emOf E s),
      β q.2 = HKind.plain := by
    intro q hq
    rw [happ] at hq
    rcases List.mem_append.mp hq with hq | hq
    · exact (hold q hq).2
    · simp only [List.mem_singleton] at hq
      rw [hq]
      exact hβ
  rw [emit_plain_log live β E x hev' hhm' hndnew hplainnew]
  rw [happ, List.filter_append]
  have h2 : ([(s.nextId, H)]).filter (fun q => live q.2) =
      [(s.nextId, H)] := by
    simp [hlive]
  rw [h2, List.map_append, List.filter_append]
  have h3 : (((emOf E s).filter (fun q => live q.2)).map
      (fun q => (q.2, x))).filter (fun r => decide (r.1 = H)) = [] := by
    rw [List.filter_eq_nil_iff]
    intro a ha
    obtain ⟨q, hq, rfl⟩ := List.mem_map.mp ha
    have hqo : q ∈ emOf E s := (List.mem_filter.mp hq).1
    have := (hold q hqo).1
    simp [this]
  rw [h3]
  simp

/-- Concrete instance of C1: handler 4 subscribed to a fresh event on a pool
with one other subscription is invoked exactly once with the argument 11. -/
theorem c1_subscribe_then_emit_invokes_once_witness :
    (emit (fun _ => true) (fun _ => HKind.plain) "e" 11
        (on_ "e" 4 (on_ "e" 3 emptyPool).2).2).2.filter
      (fun r => decide (r.1 = 4)) = [(4, 11)] :=
  c1_subscribe_then_emit_invokes_once (fun _ => true) (fun _ => HKind.plain)
    "e" 4 11 (on_ "e" 3 emptyPool).2 rfl rfl (by decide) (by decide)
    (by decide)

/-- C2: the spec and README claim the registry holds no strong (ownership)
reference to a subscribed handler.  The code stores the handler value itself
as a key of the inner `handlerMap` table — a standard JS `Map`, whose keys
are strong references — so after `on` the handler is rooted by the registry
and can never become eligible for reclamation while subscribed.  This
theorem evaluates the embedding at the failing configuration: after any
subscription the handler is listed among the registry's strongly held `Map`
keys. -/
theorem c2_registry_strongly_references_handler (E : String) (H : HandlerId)
    (s : EventPool) : H ∈ strongHandlerRefs ((on_ E H s).2) := by
  have hhm := mget_hm_on_self E H s
  have hrow : (E, mset H s.nextId (hmOf E s)) ∈ (on_ E H s).2.handlerMap :=
    mget_mem hhm
  have hkey : (H, s.nextId) ∈ mset H s.nextId (hmOf E s) :=
    mget_mem (mget_mset_self _ _ _)
  exact List.mem_flatMap.mpr
    ⟨_, hrow, List.mem_map.mpr ⟨(H, s.nextId), hkey, rfl⟩⟩

/-- C3 (amended): along any caller history from the empty registry in which
handlers are never resurrected and no `on`/`once` call registers a handler
that already has a reverse entry for that event (the duplicate-subscribe
case of C5, which breaks the agreement — see the counterexample), after
every public operation the two tables agree on the live set: a live handler
sits in the subscription table of an event under an identifier iff the
event's reverse table maps that handler to that identifier. -/
theorem c3_live_tables_agree (β : HandlerId → HKind) (steps : List Step)
    (hok : StepsOk β (fun _ => true) emptyPool steps) :
    LiveAgree (lastLive (fun _ => true) steps)
      (runSteps β emptyPool steps) := by
  have hInv := inv_runSteps β steps (fun _ => true) emptyPool
    (inv_empty (fun _ => true)) hok
  intro e id h hlive
  obtain ⟨_, _, hT⟩ := hInv
  obtain ⟨hs, hc⟩ := hT e
  constructor
  · intro hget
    exact hc id h hget hlive
  · intro hget
    rcases hs h id hget with hold | ⟨hdead, _⟩
    · exact hold
    · rw [hlive] at hdead
      exact Bool.noConfusion hdead

/-- Concrete instance of C3: a five-operation history (two subscriptions, an
emission, an unsubscription and a sweep) ends in a state whose two tables
agree on the live set. -/
theorem c3_live_tables_agree_witness :
    LiveAgree (lastLive (fun _ => true)
        [⟨fun _ => true, Op.on "a" 1⟩, ⟨fun _ => true, Op.on "a" 2⟩,
         ⟨fun _ => true, Op.emit "a" 5⟩, ⟨fun _ => true, Op.off "a" 1⟩,
         ⟨fun _ => true, Op.sweep⟩])
      (runSteps (fun _ => HKind.plain) emptyPool
        [⟨fun _ => true, Op.on "a" 1⟩, ⟨fun _ => true, Op.on "a" 2⟩,
         ⟨fun _ => true, Op.emit "a" 5⟩, ⟨fun _ => true, Op.off "a" 1⟩,
         ⟨fun _ => true, Op.sweep⟩]) := by
  apply c3_live_tables_agree
  simp only [StepsOk, okStep]
  refine ⟨fun _ hh => hh, by decide, fun _ hh => hh, by decide,
    fun _ hh => hh, trivial, fun _ hh => hh, trivial, fun _ hh => hh,
    trivial, trivial⟩

/-- Counterexample to C3 as stated: after the two public operations
`on('e', 7); on('e', 7)` (a duplicate subscribe), identifier 0 still holds
the live handler 7 in the subscription table of `e`, but the reverse table
maps handler 7 to identifier 1, not 0 — the two tables disagree on the live
set. -/
theorem c3_duplicate_subscribe_counterexample :
    mget 0 (emOf "e" (on_ "e" 7 (on_ "e" 7 emptyPool).2).2) = some 7 ∧
    mget 7 (hmOf "e" (on_ "e" 7 (on_ "e" 7 emptyPool).2).2) = some 1 ∧
    ¬ (mget 7 (hmOf "e" (on_ "e" 7 (on_ "e" 7 emptyPool).2).2) = some 0) := by
  decide

/-- C4: unsubscribing by the identifier just returned by `on` produces the
same registry state as unsubscribing by the event and handler.  The handler
is live at the call (a caller passing the handler to `off` necessarily holds
a reference to it), and every identifier already stored is older than the
freshly minted one (as is the case for every state built by the
operations). -/
theorem c4_offById_matches_off (live : HandlerId → Bool) (E : String)
    (H : HandlerId) (s : EventPool)
    (hbound : ∀ p ∈ s.events, ∀ q ∈ p.2, q.1 < s.nextId)
    (hlive : live H = true) :
    offById live (on_ E H s).1 (on_ E H s).2 = off E H (on_ E H s).2 := by
  have hev := mget_events_on_self E H s
  have hhm := mget_hm_on_self E H s
  have hnewem : mget s.nextId (mset s.nextId H (emOf E s)) = some H :=
    mget_mset_self _ _ _
  have hothers : ∀ p ∈ (on_ E H s).2.events, p.1 ≠ E →
      mhas s.nextId p.2 = false := by
    intro p hp hne
    exact mhas_false_of_bound (hbound p (mem_events_on hp hne))
  have hfind : findOwner s.nextId ((on_ E H s).2.events) =
      some (E, mset s.nextId H (emOf E s)) :=
    findOwner_eq_of_first hev (by simp [mhas, hnewem]) hothers
  rw [on_fst]
  rw [offById_eq_of_some live s.nextId _ hfind]
  have hrev : mget H (hmOf E (on_ E H s).2) = some s.nextId := by
    simp [hmOf, hhm, mget_mset_self]
  rw [off_eq_of_rev E H _ (by simp [mhas, hev]) (by simp [mhas, hhm]) hrev]
  have hder : (mget s.nextId (mset s.nextId H (emOf E s))).bind
      (deref live) = some H := by
    rw [hnewem]
    simp [deref, hlive]
  simp only [hder, hhm]
  simp [emOf, hmOf, hev, hhm]

/-- Concrete instance of C4: subscribing the handler 0 to event `e` on the
empty pool, then removing it by the returned identifier, matches removing it
by handler. -/
theorem c4_offById_matches_off_witness :
    offById (fun _ => true) (on_ "e" 0 emptyPool).1 (on_ "e" 0 emptyPool).2 =
      off "e" 0 (on_ "e" 0 emptyPool).2 :=
  c4_offById_matches_off (fun _ => true) "e" 0 emptyPool (by decide) rfl

/-- C7: removing with an unknown event row, an unknown handler, or an
identifier no subscription owns is a silent no-op: the registry state,
including every existing subscription, is returned unchanged and no error is
possible (the operations are total). -/
theorem c7_unknown_removal_is_noop (live : HandlerId → Bool) (E : String)
    (H : HandlerId) (id : EventId) (s : EventPool) :
    (mget E s.events = none → off E H s = s) ∧
    (mget E s.handlerMap = none → off E H s = s) ∧
    (mget H (hmOf E s) = none → off E H s = s) ∧
    ((∀ p ∈ s.events, mhas id p.2 = false) → offById live id s = s) := by
  refine ⟨off_eq_of_events_none E H s, off_eq_of_hm_none E H s,
    off_eq_of_no_rev E H s, fun h => ?_⟩
  exact offById_eq_of_none live id s (findOwner_eq_none id s.events h)

/-- Concrete instance of C7: on a pool holding one subscription, removing an
unknown event, an unknown handler, and an unknown identifier all leave the
state untouched. -/
theorem c7_unknown_removal_is_noop_witness :
    off "b" 3 (on_ "a" 3 emptyPool).2 = (on_ "a" 3 emptyPool).2 ∧
    off "a" 9 (on_ "a" 3 emptyPool).2 = (on_ "a" 3 emptyPool).2 ∧
    offById (fun _ => true) 99 (on_ "a" 3 emptyPool).2 =
      (on_ "a" 3 emptyPool).2 :=
  ⟨(c7_unknown_removal_is_noop (fun _ => true) "b" 3 99
      (on_ "a" 3 emptyPool).2).1 (by decide),
   (c7_unknown_removal_is_noop (fun _ => true) "a" 9 99
      (on_ "a" 3 emptyPool).2).2.2.1 (by decide),
   (c7_unknown_removal_is_noop (fun _ => true) "a" 3 99
      (on_ "a" 3 emptyPool).2).2.2.2 (by decide)⟩

/-- C8: registering a one-shot wrapper with `once` on an event with no
prior tables, then emitting twice: the captured handler is invoked exactly
once — on the first emission, with that emission's argument — the second
emission does not invoke it, and the wrapper's subscription (both its
subscription entry and its reverse entry) is removed through the normal
`off` path by the time the first emission returns.  The wrapper `w` is a
fresh live closure distinct from the captured handler `H`. -/
theorem c8_once_fires_exactly_once (live : HandlerId → Bool)
    (β : HandlerId → HKind) (E : String) (H w : HandlerId) (a b : Nat)
    (s : EventPool) (hevn : mget E s.events = none)
    (hhmn : mget E s.handlerMap = none) (hlw : live w = true)
    (hβw : β w = HKind.wrapper E H) (hne : H ≠ w) :
    ((emit live β E a (once E w s).2).2.filter
      (fun r => decide (r.1 = H)) = [(H, a)]) ∧
    ((emit live β E b (emit live β E a (once E w s).2).1).2.filter
      (fun r => decide (r.1 = H)) = []) ∧
    mget (once E w s).1 (emOf E (emit live β E a (once E w s).2).1) = none ∧
    mget w (hmOf E (emit live β E a (once E w s).2).1) = none := by
  have hemOf : emOf E s = [] := by rw [emOf, hevn]; rfl
  have hhmOf : hmOf E s = [] := by rw [hmOf, hhmn]; rfl
  have hev' : mget E ((once E w s).2.events) = some [(s.nextId, w)] := by
    have := mget_events_on_self E w s
    rw [hemOf] at this
    exact this
  have hhm' : mget E ((once E w s).2.handlerMap) =
      some [(w, s.nextId)] := by
    have := mget_hm_on_self E w s
    rw [hhmOf] at this
    exact this
  have hclean : cleanDeadHandlers live E (once E w s).2 = (once E w s).2 := by
    apply clean_eq_self_of_allLive
    rw [emOf, hev']
    intro p hp
    simp only [Option.getD_some, List.mem_singleton] at hp
    rw [hp]
    exact hlw
  have hemita : emit live β E a (once E w s).2 =
      (off E w (once E w s).2, [(w, a), (H, a)]) := by
    unfold emit
    dsimp only
    rw [hclean, hev']
    dsimp only
    exact emitLoop_one_wrapper live β E a s.nextId w E H _ hev' hlw hβw
  have hrev : mget w (hmOf E (once E w s).2) = some s.nextId := by
    rw [hmOf, hhm']
    simp [mget]
  have hoff : off E w (once E w s).2 =
      { (once E w s).2 with
        events := mset E [] ((once E w s).2.events),
        handlerMap := mset E [] ((once E w s).2.handlerMap) } := by
    rw [off_eq_of_rev E w (once E w s).2 (by simp [mhas, hev'])
      (by simp [mhas, hhm']) hrev]
    rw [show emOf E (once E w s).2 = [(s.nextId, w)] from by
        rw [emOf, hev']
        rfl,
      show hmOf E (once E w s).2 = [(w, s.nextId)] from by
        rw [hmOf, hhm']
        rfl]
    simp [mdel]
  have hfin_ev : mget E ((off E w (once E w s).2).events) = some [] := by
    rw [hoff]
    exact mget_mset_self _ _ _
  have hfin_hm : mget E ((off E w (once E w s).2).handlerMap) = some [] := by
    rw [hoff]
    exact mget_mset_self _ _ _
  have hclean2 : cleanDeadHandlers live E (off E w (once E w s).2) =
      off E w (once E w s).2 := by
    apply clean_eq_self_of_allLive
    rw [emOf, hfin_ev]
    intro p hp
    simp at hp
  have hemitb : emit live β E b (off E w (once E w s).2) =
      (off E w (once E w s).2, []) := by
    unfold emit
    dsimp only
    rw [hclean2, hfin_ev]
    rfl
  refine ⟨?_, ?_, ?_, ?_⟩
  · rw [hemita]
    simp [List.filter_cons, hne, Ne.symm hne]
  · rw [hemita]
    dsimp only
    rw [hemitb]
    rfl
  · rw [hemita]
    dsimp only
    rw [show (once E w s).1 = s.nextId from rfl, emOf, hfin_ev]
    rfl
  · rw [hemita]
    dsimp only
    rw [hmOf, hfin_hm]
    rfl

/-- Concrete instance of C8: a once-subscription of wrapper 50 around
handler 7 fires handler 7 exactly once with the first argument and not on
the second emission. -/
theorem c8_once_fires_exactly_once_witness :
    ((emit (fun _ => true) (fun h => if h = 50 then HKind.wrapper "e" 7
        else HKind.plain) "e" 1 (once "e" 50 emptyPool).2).2.filter
      (fun r => decide (r.1 = 7)) = [(7, 1)]) ∧
    ((emit (fun _ => true) (fun h => if h = 50 then HKind.wrapper "e" 7
        else HKind.plain) "e" 2 (emit (fun _ => true)
          (fun h => if h = 50 then HKind.wrapper "e" 7 else HKind.plain)
          "e" 1 (once "e" 50 emptyPool).2).1).2.filter
      (fun r => decide (r.1 = 7)) = []) := by
  have h := c8_once_fires_exactly_once (fun _ => true)
    (fun h => if h = 50 then HKind.wrapper "e" 7 else HKind.plain)
    "e" 7 50 1 2 emptyPool rfl rfl rfl (by decide) (by decide)
  exact ⟨h.1, h.2.1⟩

/-- C9 (amended): the normal sweep and removal flows — `off`, `offById`,
`cleanDeadHandlers` and `sweepDeadHandlers` — never destroy an event's table
rows: the key lists of both outer tables are preserved exactly.  Rows are
destroyed only by `removeAllListeners` or `removeAll`.  (The original claim
additionally asserted that these flows never leave a row empty-but-present,
which the code does not satisfy: see the counterexample.) -/
theorem c9_rows_preserved_by_sweep_and_removal (live : HandlerId → Bool)
    (E : String) (H : HandlerId) (id : EventId) (s : EventPool) :
    ((off E H s).events.map Prod.fst = s.events.map Prod.fst) ∧
    ((off E H s).handlerMap.map Prod.fst = s.handlerMap.map Prod.fst) ∧
    ((offById live id s).events.map Prod.fst = s.events.map Prod.fst) ∧
    ((offById live id s).handlerMap.map Prod.fst =
      s.handlerMap.map Prod.fst) ∧
    ((cleanDeadHandlers live E s).events.map Prod.fst =
      s.events.map Prod.fst) ∧
    ((cleanDeadHandlers live E s).handlerMap.map Prod.fst =
      s.handlerMap.map Prod.fst) ∧
    ((sweepDeadHandlers live s).events.map Prod.fst =
      s.events.map Prod.fst) ∧
    ((sweepDeadHandlers live s).handlerMap.map Prod.fst =
      s.handlerMap.map Prod.fst) :=
  ⟨keys_events_off E H s, keys_hm_off E H s,
   keys_events_offById live id s, keys_hm_offById live id s,
   keys_events_clean live E s, keys_hm_clean live E s,
   keys_events_sweep live s, keys_hm_sweep live s⟩

/-- Counterexample to C9 as stated: removing the only handler of an event
with `off` leaves both of the event's tables present but empty — an
empty-but-present resting state produced by a normal removal flow. -/
theorem c9_empty_but_present_counterexample :
    mget "e" ((off "e" 7 (on_ "e" 7 emptyPool).2).events) = some [] ∧
    mget "e" ((off "e" 7 (on_ "e" 7 emptyPool).2).handlerMap) = some [] := by
  decide

/-- C5 (amended): when handler H is already subscribed to event E under
identifier id1 and `on` is called again for (E, H) returning id2, the
reverse entry for H is overwritten to id2 and id1 remains in the
subscription table; id1 is purged by a subsequent sweep once the handler has
been reclaimed; but while H is still live, a later emit on E invokes H via
BOTH the orphaned id1 and id2 (the original claim said the orphan would not
fire, which the code does not satisfy: see the counterexample). -/
theorem c5_duplicate_subscribe_orphan (live live2 : HandlerId → Bool)
    (β : HandlerId → HKind) (E : String) (H : HandlerId) (x : Nat)
    (id1 : EventId) (s : EventPool) (hWF : WFPool s)
    (hbound : ∀ q ∈ emOf E s, q.1 < s.nextId)
    (hrev : mget H (hmOf E s) = some id1)
    (hsub : mget id1 (emOf E s) = some H) :
    (mget H (hmOf E (on_ E H s).2) = some s.nextId) ∧
    (mget id1 (emOf E (on_ E H s).2) = some H) ∧
    (live2 H = false →
      mget id1 (emOf E (sweepDeadHandlers live2 (on_ E H s).2)) = none) ∧
    (live H = true → β H = HKind.plain → emOf E s = [(id1, H)] →
      (emit live β E x (on_ E H s).2).2 = [(H, x), (H, x)]) := by
  have hid1 : id1 < s.nextId := hbound (id1, H) (mget_mem hsub)
  have hev' := mget_events_on_self E H s
  have hhm' := mget_hm_on_self E H s
  have hi : mget H (hmOf E (on_ E H s).2) = some s.nextId := by
    rw [hmOf, hhm']
    simp only [Option.getD_some]
    exact mget_mset_self _ _ _
  have hii : mget id1 (emOf E (on_ E H s).2) = some H := by
    rw [emOf, hev']
    simp only [Option.getD_some]
    rw [mget_mset_ne s.nextId id1 H (emOf E s) (Nat.ne_of_lt hid1)]
    exact hsub
  refine ⟨hi, hii, ?_, ?_⟩
  · intro hdead
    have hWF' := on_WF E H s hWF
    have hndrow : ((emOf E (on_ E H s).2).map Prod.fst).Nodup := by
      rw [emOf, hev']
      exact hWF'.2.2.1 (E, mset s.nextId H (emOf E s)) (mget_mem hev')
    rcases hc : mget id1 (emOf E (sweepDeadHandlers live2 (on_ E H s).2))
        with _ | h
    · rfl
    · exfalso
      have hmemsw : (id1, h) ∈ emOf E (sweepDeadHandlers live2 (on_ E H s).2) :=
        mget_mem hc
      have hmem' : (id1, h) ∈ emOf E (on_ E H s).2 :=
        (foldl_clean_emOf_sublist live2 _ E _).subset hmemsw
      have hH : h = H :=
        mem_value_eq_of_nodup hndrow hmem' (mget_mem hii)
      subst hH
      rcases sweep_cleanAt live2 hWF' E with hall | hnone | hnone
      · rw [hall (id1, h) hmemsw] at hdead
        exact Bool.true_eq_false.mp hdead
      · rw [mget_eq_none_iff, keys_events_sweep] at hnone
        exact hnone (mem_keys_of_mget hev')
      · rw [mget_eq_none_iff, keys_hm_sweep] at hnone
        exact hnone (mem_keys_of_mget hhm')
  · intro hlive hβ hone
    have hfresh : mget s.nextId (emOf E s) = none := by
      rw [hone]
      rw [mget, if_neg (Nat.ne_of_lt hid1)]
      rfl
    have happ : mset s.nextId H (emOf E s) = [(id1, H), (s.nextId, H)] := by
      rw [mset_append_of_not_mem H hfresh, hone]
      rfl
    have hndnew : ((mset s.nextId H (emOf E s)).map Prod.fst).Nodup := by
      rw [happ]
      simp only [List.map_cons, List.map_nil, List.nodup_cons]
      refine ⟨by simp only [List.mem_singleton]; exact Nat.ne_of_lt hid1,
        by simp⟩
    have hplainnew : ∀ q ∈ mset s.nextId H (emOf E s),
        β q.2 = HKind.plain := by
      intro q hq
      rw [happ] at hq
      rcases List.mem_cons.mp hq with hq | hq
      · rw [hq]
        exact hβ
      · simp only [List.mem_singleton] at hq
        rw [hq]
        exact hβ
    rw [emit_plain_log live β E x hev' hhm' hndnew hplainnew, happ]
    simp [List.filter_cons, hlive]

/-- Concrete instance of C5 as amended: duplicate-subscribe of handler 7 to
event `e`; the reverse entry moves to the new identifier, the orphan entry
stays, a sweep after reclamation purges it. -/
theorem c5_duplicate_subscribe_orphan_witness :
    (mget 7 (hmOf "e" (on_ "e" 7 (on_ "e" 7 emptyPool).2).2) = some 1) ∧
    (mget 0 (emOf "e" (on_ "e" 7 (on_ "e" 7 emptyPool).2).2) = some 7) ∧
    (mget 0 (emOf "e" (sweepDeadHandlers (fun _ => false)
      (on_ "e" 7 (on_ "e" 7 emptyPool).2).2)) = none) := by
  have h := c5_duplicate_subscribe_orphan (fun _ => true) (fun _ => false)
    (fun _ => HKind.plain) "e" 7 0 0 (on_ "e" 7 emptyPool).2
    (by decide) (by decide) (by decide) (by decide)
  exact ⟨h.1, h.2.1, h.2.2.1 rfl⟩

/-- Counterexample to C5 as stated: after subscribing handler 7 to event `e`
twice (orphaning the first identifier), an emit while the handler is live
invokes the handler twice — once via the orphaned identifier — whereas the
claim says the orphan does not fire. -/
theorem c5_orphan_fires_counterexample :
    (emit (fun _ => true) (fun _ => HKind.plain) "e" 0
      (on_ "e" 7 (on_ "e" 7 emptyPool).2).2).2 = [(7, 0), (7, 0)] := by
  decide

/-- C6: `sweepDeadHandlers` is idempotent — with the liveness of handlers
unchanged and no intervening subscription changes, sweeping twice yields the
same state as sweeping once — and a sweep never removes a subscription entry
whose handler is still live.  The hypothesis is the `Map` well-formedness of
the state (duplicate-free key lists), which every genuine JS `Map` state
satisfies. -/
theorem c6_sweep_idempotent_and_live_preserving (live : HandlerId → Bool)
    (s : EventPool) (hWF : WFPool s) :
    sweepDeadHandlers live (sweepDeadHandlers live s) =
      sweepDeadHandlers live s ∧
    (∀ e id h, mget id (emOf e s) = some h → live h = true →
      mget id (emOf e (sweepDeadHandlers live s)) = some h) := by
  constructor
  · show (((sweepDeadHandlers live s).events).map Prod.fst).foldl
      (fun acc e => cleanDeadHandlers live e acc)
      (sweepDeadHandlers live s) = sweepDeadHandlers live s
    exact foldl_clean_id_of_cleanAt live _ (sweep_cleanAt live hWF)
  · intro e id h hget hlive
    exact foldl_clean_preserves_live live _ hWF hget hlive

/-- Concrete instance of C6: on a pool with a live and a reclaimed handler
subscribed to the same event, sweeping twice equals sweeping once. -/
theorem c6_sweep_idempotent_witness :
    sweepDeadHandlers (fun h => decide (h ≠ 2))
        (sweepDeadHandlers (fun h => decide (h ≠ 2))
          (on_ "a" 1 (on_ "a" 2 emptyPool).2).2) =
      sweepDeadHandlers (fun h => decide (h ≠ 2))
        (on_ "a" 1 (on_ "a" 2 emptyPool).2).2 :=
  (c6_sweep_idempotent_and_live_preserving (fun h => decide (h ≠ 2))
    (on_ "a" 1 (on_ "a" 2 emptyPool).2).2 (by decide)).1

/-- C10: every public operation scoped to an event E leaves both tables of
every other event E' unchanged: `on`, `once`, `off`, `removeAllListeners`
unconditionally; `offById` when the identifier is owned by no event other
than E; and `emit` provided the handlers it can invoke are all plain
callables (none of them re-enters the registry). -/
theorem c10_operations_frame (live : HandlerId → Bool)
    (β : HandlerId → HKind) (E E' : String) (H : HandlerId) (id : EventId)
    (x : Nat) (s : EventPool) (hne : E' ≠ E) :
    (mget E' ((on_ E H s).2.events) = mget E' s.events ∧
      mget E' ((on_ E H s).2.handlerMap) = mget E' s.handlerMap) ∧
    (mget E' ((once E H s).2.events) = mget E' s.events ∧
      mget E' ((once E H s).2.handlerMap) = mget E' s.handlerMap) ∧
    (mget E' ((off E H s).events) = mget E' s.events ∧
      mget E' ((off E H s).handlerMap) = mget E' s.handlerMap) ∧
    ((∀ p ∈ s.events, p.1 ≠ E → mhas id p.2 = false) →
      mget E' ((offById live id s).events) = mget E' s.events ∧
      mget E' ((offById live id s).handlerMap) = mget E' s.handlerMap) ∧
    (mget E' ((removeAllListeners E s).events) = mget E' s.events ∧
      mget E' ((removeAllListeners E s).handlerMap) = mget E' s.handlerMap) ∧
    ((∀ q ∈ emOf E s, β q.2 = HKind.plain) →
      mget E' (((emit live β E x s).1).events) = mget E' s.events ∧
      mget E' (((emit live β E x s).1).handlerMap) = mget E' s.handlerMap) := by
  refine ⟨⟨mget_events_on_ne E E' H s hne, mget_hm_on_ne E E' H s hne⟩,
    ⟨mget_events_on_ne E E' H s hne, mget_hm_on_ne E E' H s hne⟩,
    ⟨mget_events_off_ne E E' H s hne, mget_hm_off_ne E E' H s hne⟩,
    fun h => ⟨mget_events_offById_ne live id E E' s hne h,
      mget_hm_offById_ne live id E E' s hne h⟩,
    ⟨mget_events_removeAllListeners_ne E E' s hne,
      mget_hm_removeAllListeners_ne E E' s hne⟩,
    fun h => ?_⟩
  rw [emit_state_of_plain live β E x s h]
  exact ⟨mget_events_clean_ne live E E' s hne, mget_hm_clean_ne live E E' s hne⟩

/-- Concrete instance of C10: operations on event `a` do not disturb the
tables of event `b`. -/
theorem c10_operations_frame_witness :
    mget "b" ((on_ "a" 5 (on_ "b" 9 emptyPool).2).2.events) =
      mget "b" ((on_ "b" 9 emptyPool).2.events) ∧
    mget "b" (((emit (fun _ => true) (fun _ => HKind.plain) "a" 0
        (on_ "b" 9 emptyPool).2).1).events) =
      mget "b" ((on_ "b" 9 emptyPool).2.events) :=
  ⟨(c10_operations_frame (fun _ => true) (fun _ => HKind.plain) "a" "b" 5 0 0
      (on_ "b" 9 emptyPool).2 (by decide)).1.1,
   ((c10_operations_frame (fun _ => true) (fun _ => HKind.plain) "a" "b" 5 0 0
      (on_ "b" 9 emptyPool).2 (by decide)).2.2.2.2.2 (by decide)).1⟩

end Claims

end WeakEventPool
